import Mathlib

/-!
Verification of the key-value storage engine (LSM tree): a shallow embedding
of the record codec, sorted runs (SSTables), the append log, the compactor,
and the engine facade, together with proofs of the specification claims.

Keys and values are 64-bit unsigned integers, embedded as `Nat` with explicit
`< 2^64` bounds where the byte codec needs them.  Bytes are `Nat` values
`< 256` produced by the little-endian helpers.
-/

namespace KVStore

/-- Number of bytes of the little-endian length prefix (`STRUCT_LEN_BYTES`). -/
def STRUCT_LEN_BYTES : Nat := 3

/-- Size of a preallocated append-log file (`FILE_SIZE_BYTES`, 16 KiB). -/
def FILE_SIZE_BYTES : Nat := 1024 * 16

/-- `TABLE_TO_INDEX_RATIO` from `sstables/mod.rs`. -/
def TABLE_TO_INDEX_RATIO : Nat := 128

/-- Serialization error kinds (`SerializationError` in `serialization.rs`). -/
inductive SerializationError where
  | serializingStruct
  | bufferTooSmall
  | invalidLength
  | decodeFailed
deriving DecidableEq

/-- Engine error kinds (`Error` in `errors.rs`). -/
inductive Error where
  | invalidDbLocation
  | fileDirectoryCreation
  | serialization (e : SerializationError)
  | io
  | tooBig
deriving DecidableEq

/-- A key-value record (`KVMemoryRepr` in `serialization.rs`): key, optional
value (`none` is a tombstone) and the `valid` flag distinguishing real records
from the zero-filled tail of a preallocated file. -/
structure KVMemoryRepr where
  key : Nat
  value : Option Nat
  valid : Bool
deriving DecidableEq

instance : Inhabited KVMemoryRepr := ⟨⟨0, none, false⟩⟩

/-- `KVMemoryRepr::new`: `valid` is always set to `true`. -/
def KVMemoryRepr.new (key : Nat) (value : Option Nat) : KVMemoryRepr :=
  ⟨key, value, true⟩

/-- Well-formedness of a record as a pair of u64 fields: the `Nat` embedding
carries the 64-bit bounds explicitly. -/
def KVMemoryRepr.wf (r : KVMemoryRepr) : Prop :=
  r.key < 2 ^ 64 ∧ r.value.getD 0 < 2 ^ 64

instance (r : KVMemoryRepr) : Decidable r.wf := by
  unfold KVMemoryRepr.wf; infer_instance

/-- Little-endian byte decomposition: `n` bytes of `x`. -/
def toLEBytes : Nat → Nat → List Nat
  | 0, _ => []
  | n + 1, x => x % 256 :: toLEBytes n (x / 256)

/-- Recompose a little-endian byte list into a number
(`deserialize_length` generalized to any width). -/
def fromLEBytes (bs : List Nat) : Nat :=
  bs.foldr (fun b acc => b + 256 * acc) 0

theorem toLEBytes_length (n x : Nat) : (toLEBytes n x).length = n := by
  induction n generalizing x with
  | zero => rfl
  | succ n ih => simp [toLEBytes, ih]

theorem fromLEBytes_toLEBytes (n x : Nat) :
    fromLEBytes (toLEBytes n x) = x % 256 ^ n := by
  induction n generalizing x with
  | zero => simp [toLEBytes, fromLEBytes, Nat.mod_one]
  | succ n ih =>
    have : fromLEBytes (toLEBytes (n + 1) x)
        = x % 256 + 256 * fromLEBytes (toLEBytes n (x / 256)) := by
      simp [toLEBytes, fromLEBytes]
    rw [this, ih, pow_succ, mul_comm (256 ^ n) 256, Nat.mod_mul]

theorem fromLEBytes_toLEBytes_of_lt {n x : Nat} (h : x < 256 ^ n) :
    fromLEBytes (toLEBytes n x) = x := by
  rw [fromLEBytes_toLEBytes, Nat.mod_eq_of_lt h]

/-- Modelled from the spec: the payload codec.  The source delegates the
record payload to the external `bitcode` crate (not part of this repository);
the spec only requires a self-delimiting encoding that serializes the three
fields `key`, `value`, `valid` in a fixed order.  We use a concrete
little-endian layout: 8 key bytes, a value tag (0 = absent, 1 followed by 8
value bytes), and one `valid` byte. -/
def encodePayload (r : KVMemoryRepr) : List Nat :=
  toLEBytes 8 r.key
    ++ (match r.value with
        | none => [0]
        | some v => 1 :: toLEBytes 8 v)
    ++ [if r.valid then 1 else 0]

/-- Helper for `decodePayload`: parse the final `valid` byte, requiring that
the payload is consumed exactly. -/
def decodeValidByte (k : Nat) (v : Option Nat) : List Nat → Option KVMemoryRepr
  | [0] => some ⟨k, v, false⟩
  | [1] => some ⟨k, v, true⟩
  | _ => none

/-- Modelled from the spec: payload decoder matching `encodePayload`;
fails on malformed or incompletely-consumed payloads (the `bitcode::decode`
stand-in). -/
def decodePayload (bs : List Nat) : Option KVMemoryRepr :=
  if bs.length < 8 then none
  else
    match bs.drop 8 with
    | 0 :: rest => decodeValidByte (fromLEBytes (bs.take 8)) none rest
    | 1 :: rest =>
        if rest.length < 8 then none
        else decodeValidByte (fromLEBytes (bs.take 8))
          (some (fromLEBytes (rest.take 8))) (rest.drop 8)
    | _ => none

/-- `serialize_length`: 3-byte little-endian length prefix, failing with
`TooBig` past `2^24 - 1`. -/
def serialize_length (length : Nat) : Except Error (List Nat) :=
  if length > 2 ^ (STRUCT_LEN_BYTES * 8) - 1 then .error .tooBig
  else .ok (toLEBytes STRUCT_LEN_BYTES length)

/-- `serialize` from `serialization.rs`: length prefix followed by the
encoded payload. -/
def serialize (data : KVMemoryRepr) : Except Error (List Nat) := do
  let encoded := encodePayload data
  let prefixBytes ← serialize_length encoded.length
  return prefixBytes ++ encoded

/-- The byte string `serialize` produces (it never fails for this codec,
see `serialize_eq_ok`). -/
def serBytes (r : KVMemoryRepr) : List Nat :=
  toLEBytes STRUCT_LEN_BYTES (encodePayload r).length ++ encodePayload r

theorem encodePayload_length (r : KVMemoryRepr) :
    (encodePayload r).length = 10 ∨ (encodePayload r).length = 18 := by
  cases hv : r.value <;>
    simp [encodePayload, hv, toLEBytes_length]

theorem serialize_eq_ok (r : KVMemoryRepr) : serialize r = .ok (serBytes r) := by
  have h := encodePayload_length r
  unfold serialize serialize_length serBytes
  rcases h with h | h <;> simp [h, STRUCT_LEN_BYTES]

theorem serBytes_length (r : KVMemoryRepr) :
    (serBytes r).length = 13 ∨ (serBytes r).length = 21 := by
  have h := encodePayload_length r
  unfold serBytes
  rcases h with h | h <;> simp [h, toLEBytes_length, STRUCT_LEN_BYTES]

theorem serBytes_length_le (r : KVMemoryRepr) : (serBytes r).length ≤ 21 := by
  rcases serBytes_length r with h | h <;> omega

theorem serBytes_length_pos (r : KVMemoryRepr) : 4 ≤ (serBytes r).length := by
  rcases serBytes_length r with h | h <;> omega

/-- Payload round trip for well-formed records. -/
theorem decodePayload_encodePayload {r : KVMemoryRepr} (h : r.wf) :
    decodePayload (encodePayload r) = some r := by
  obtain ⟨hk, hv⟩ := h
  obtain ⟨key, val, vb⟩ := r
  simp only [KVMemoryRepr.wf] at hk hv
  have hk' : fromLEBytes (toLEBytes 8 key) = key :=
    fromLEBytes_toLEBytes_of_lt (by norm_num at hk ⊢; omega)
  have hlen : (toLEBytes 8 key).length = 8 := toLEBytes_length 8 key
  cases val with
  | none =>
    cases vb <;>
      simp [decodePayload, encodePayload, hlen, hk', decodeValidByte,
        List.drop_append_of_le_length, List.take_append_of_le_length, hlen.le]
  | some v =>
    have hv' : fromLEBytes (toLEBytes 8 v) = v := by
      apply fromLEBytes_toLEBytes_of_lt
      simp only [Option.getD_some] at hv
      norm_num at hv ⊢; omega
    have hlenv : (toLEBytes 8 v).length = 8 := toLEBytes_length 8 v
    cases vb <;>
      simp [decodePayload, encodePayload, hlen, hlenv, hk', hv',
        decodeValidByte, List.drop_append_of_le_length,
        List.take_append_of_le_length, hlen.le]

/-- Body of `deserialize` once the prefix has been read: reject zero lengths
and missing bytes, decode the payload, and return the record together with
the remaining bytes. -/
def deserializeBody (bytes : List Nat) (struct_len : Nat) :
    Except Error (KVMemoryRepr × List Nat) :=
  if struct_len = 0 then .error (.serialization .bufferTooSmall)
  else if bytes.length < STRUCT_LEN_BYTES + struct_len then
    .error (.serialization .bufferTooSmall)
  else
    match decodePayload ((bytes.drop STRUCT_LEN_BYTES).take struct_len) with
    | none => .error (.serialization .decodeFailed)
    | some entry => .ok (entry, bytes.drop (STRUCT_LEN_BYTES + struct_len))

/-- `deserialize` from `serialization.rs`: read the 3-byte little-endian
length prefix and decode the declared number of payload bytes. -/
def deserialize (bytes : List Nat) :
    Except Error (KVMemoryRepr × List Nat) :=
  if bytes.length < STRUCT_LEN_BYTES then
    .error (.serialization .bufferTooSmall)
  else deserializeBody bytes (fromLEBytes (bytes.take STRUCT_LEN_BYTES))

/-- A successful `deserialize` consumes the 3-byte prefix plus a nonzero
payload, hence at least 4 bytes. -/
theorem deserializeBody_consumes {bytes : List Nat} {sl : Nat}
    {e : KVMemoryRepr} {rest : List Nat}
    (h : deserializeBody bytes sl = .ok (e, rest)) :
    rest.length + 4 ≤ bytes.length := by
  unfold deserializeBody at h
  split at h
  · exact absurd h (by simp)
  · next hzero =>
    split at h
    · exact absurd h (by simp)
    · next hfit =>
      split at h
      · exact absurd h (by simp)
      · next entry hdec =>
        simp only [Except.ok.injEq, Prod.mk.injEq] at h
        obtain ⟨-, hrest⟩ := h
        subst hrest
        simp only [List.length_drop]
        simp [STRUCT_LEN_BYTES] at hfit ⊢
        omega

theorem deserialize_consumes {bytes : List Nat} {e : KVMemoryRepr}
    {rest : List Nat} (h : deserialize bytes = .ok (e, rest)) :
    rest.length + 4 ≤ bytes.length := by
  unfold deserialize at h
  split at h
  · exact absurd h (by simp)
  · exact deserializeBody_consumes h

theorem deserialize_shrinks {bytes : List Nat} {e : KVMemoryRepr}
    {rest : List Nat} (h : deserialize bytes = .ok (e, rest)) :
    rest.length < bytes.length := by
  have := deserialize_consumes h
  omega

/-- Loop body of `deserialize_entries_from_bytes`: repeatedly deserialize
records, skip records whose `valid` flag is false, stop cleanly if
deserialization fails and the remaining bytes are all zeros, and propagate
the error otherwise.  The `fuel` parameter is an embedding device making the
recursion structural; `deserialize_shrinks` shows one byte of fuel per
iteration suffices, and `scanLoop_congr` shows the result does not depend on
the fuel once it exceeds the buffer length. -/
def scanLoop : Nat → List Nat → Except Error (List KVMemoryRepr)
  | 0, _ => .ok []
  | fuel + 1, buffer =>
      if buffer = [] then .ok []
      else
        match deserialize buffer with
        | .ok (entry, unused) =>
            match scanLoop fuel unused with
            | .ok rest => .ok (if entry.valid then entry :: rest else rest)
            | .error er => .error er
        | .error er =>
            if buffer.all (fun b => b = 0) then .ok [] else .error er

/-- `deserialize_entries_from_bytes` from `serialization.rs`. -/
def deserialize_entries_from_bytes (buffer : List Nat) :
    Except Error (List KVMemoryRepr) :=
  scanLoop (buffer.length + 1) buffer

/-- Single-record round trip with arbitrary following bytes. -/
theorem deserialize_serBytes {r : KVMemoryRepr} (hwf : r.wf)
    (tail : List Nat) :
    deserialize (serBytes r ++ tail) = .ok (r, tail) := by
  have hpl := encodePayload_length r
  have hlenpre : (toLEBytes STRUCT_LEN_BYTES (encodePayload r).length).length
      = STRUCT_LEN_BYTES := toLEBytes_length _ _
  have hple : (encodePayload r).length < 256 ^ STRUCT_LEN_BYTES := by
    rcases hpl with h | h <;> simp [h, STRUCT_LEN_BYTES]
  have htake : (serBytes r ++ tail).take STRUCT_LEN_BYTES
      = toLEBytes STRUCT_LEN_BYTES (encodePayload r).length := by
    rw [serBytes, List.append_assoc, List.take_append_of_le_length hlenpre.ge,
      List.take_of_length_le hlenpre.le]
  have hfrom : fromLEBytes ((serBytes r ++ tail).take STRUCT_LEN_BYTES)
      = (encodePayload r).length := by
    rw [htake, fromLEBytes_toLEBytes_of_lt hple]
  have hlen : (serBytes r ++ tail).length
      = STRUCT_LEN_BYTES + (encodePayload r).length + tail.length := by
    simp [serBytes, hlenpre]
    omega
  have hdrop : (serBytes r ++ tail).drop STRUCT_LEN_BYTES
      = encodePayload r ++ tail := by
    rw [serBytes, List.append_assoc, List.drop_append_of_le_length hlenpre.ge,
      List.drop_of_length_le hlenpre.le, List.nil_append]
  have hplpos : 0 < (encodePayload r).length := by
    rcases hpl with h | h <;> simp [h]
  have hrest : (serBytes r ++ tail).drop
      (STRUCT_LEN_BYTES + (encodePayload r).length) = tail := by
    have hsb : (serBytes r).length
        = STRUCT_LEN_BYTES + (encodePayload r).length := by
      simp [serBytes, hlenpre]
    rw [← hsb, List.drop_left]
  unfold deserialize
  rw [if_neg (by omega), hfrom]
  unfold deserializeBody
  rw [if_neg (by omega), if_neg (by omega), hdrop,
    List.take_append_of_le_length le_rfl, List.take_length,
    decodePayload_encodePayload hwf, hrest]

theorem deserialize_replicate_zero (n : Nat) :
    deserialize (List.replicate n 0)
      = .error (.serialization .bufferTooSmall) := by
  unfold deserialize
  by_cases h : (List.replicate (α := Nat) n 0).length < STRUCT_LEN_BYTES
  · rw [if_pos h]
  · rw [if_neg h]
    have hn : 3 ≤ n := by simpa [STRUCT_LEN_BYTES] using h
    have htake : (List.replicate (α := Nat) n 0).take STRUCT_LEN_BYTES
        = List.replicate 3 0 := by
      rw [List.take_replicate]
      simp [STRUCT_LEN_BYTES, Nat.min_eq_left hn]
    rw [htake]
    have : fromLEBytes (List.replicate 3 0) = 0 := by rfl
    rw [this]
    unfold deserializeBody
    rw [if_pos rfl]

/-- Scanning an all-zero buffer yields no entries (the clean stop). -/
theorem scanLoop_replicate_zero (fuel n : Nat) :
    scanLoop (fuel + 1) (List.replicate n 0) = .ok [] := by
  rw [scanLoop]
  cases n with
  | zero => simp
  | succ m =>
    rw [if_neg (by simp), deserialize_replicate_zero]
    simp

theorem scan_replicate_zero (n : Nat) :
    deserialize_entries_from_bytes (List.replicate n 0) = .ok [] := by
  unfold deserialize_entries_from_bytes
  rw [List.length_replicate]
  exact scanLoop_replicate_zero n n

/-- Scanning the concatenation of serialized well-formed valid records,
followed by any number of zero bytes, recovers exactly those records, for
any sufficient fuel. -/
theorem scanLoop_flatMap_serBytes {l : List KVMemoryRepr}
    (hwf : ∀ e ∈ l, e.wf ∧ e.valid = true) (n : Nat) :
    ∀ fuel, (l.flatMap serBytes ++ List.replicate n 0).length < fuel →
      scanLoop fuel (l.flatMap serBytes ++ List.replicate n 0) = .ok l := by
  induction l with
  | nil =>
    intro fuel hfuel
    simp only [List.flatMap_nil, List.nil_append] at hfuel ⊢
    cases fuel with
    | zero => simp at hfuel
    | succ f => exact scanLoop_replicate_zero f n
  | cons r rest ih =>
    intro fuel hfuel
    obtain ⟨hrwf, hrvalid⟩ := hwf r (by simp)
    have hbuf : (r :: rest).flatMap serBytes ++ List.replicate n 0
        = serBytes r ++ (rest.flatMap serBytes ++ List.replicate n 0) := by
      simp [List.flatMap_cons]
    cases fuel with
    | zero => omega
    | succ f =>
      have hsne : serBytes r ≠ [] := by
        intro h
        have := serBytes_length_pos r
        rw [h] at this
        simp at this
      have hne : serBytes r ++ (rest.flatMap serBytes ++ List.replicate n 0)
          ≠ [] := fun hcon => hsne (List.append_eq_nil.mp hcon).1
      have hfuel' : (rest.flatMap serBytes ++ List.replicate n 0).length
          < f := by
        rw [hbuf, List.length_append] at hfuel
        have := serBytes_length_pos r
        omega
      rw [hbuf, scanLoop, if_neg hne, deserialize_serBytes hrwf]
      dsimp only
      rw [ih (fun e he => hwf e (by simp [he])) f hfuel', hrvalid]
      simp

theorem scan_flatMap_serBytes {l : List KVMemoryRepr}
    (hwf : ∀ e ∈ l, e.wf ∧ e.valid = true) (n : Nat) :
    deserialize_entries_from_bytes (l.flatMap serBytes ++ List.replicate n 0)
      = .ok l := by
  unfold deserialize_entries_from_bytes
  exact scanLoop_flatMap_serBytes hwf n _ (by omega)

/-- C3: Round-trip through the record codec and scanner: for any
well-formed record R (with `|serialize(R)| ≤ F`), scanning
`serialize(R) ++ zeros` returns exactly `[R]`; the scanner stops cleanly at
the all-zero tail, and since R is a real record its `valid` flag is true so
it is not skipped. -/
theorem C3_scan_roundtrip (r : KVMemoryRepr) (bs : List Nat) (n : Nat)
    (hwf : r.wf) (hvalid : r.valid = true)
    (hser : serialize r = .ok bs) (hF : bs.length ≤ FILE_SIZE_BYTES) :
    deserialize_entries_from_bytes (bs ++ List.replicate n 0) = .ok [r] := by
  have hbs : bs = serBytes r := by
    rw [serialize_eq_ok r] at hser
    injection hser with h
    exact h.symm
  subst hbs
  have := @scan_flatMap_serBytes [r]
    (fun e he => by simp at he; subst he; exact ⟨hwf, hvalid⟩) n
  simpa using this

/-- Witness for C3 at a concrete record and zero tail. -/
theorem C3_scan_roundtrip_witness :
    (KVMemoryRepr.new 1 (some 2)).wf
      ∧ (KVMemoryRepr.new 1 (some 2)).valid = true
      ∧ serialize (KVMemoryRepr.new 1 (some 2))
          = .ok (serBytes (KVMemoryRepr.new 1 (some 2)))
      ∧ (serBytes (KVMemoryRepr.new 1 (some 2))).length ≤ FILE_SIZE_BYTES
      ∧ deserialize_entries_from_bytes
          (serBytes (KVMemoryRepr.new 1 (some 2)) ++ List.replicate 5 0)
          = .ok [KVMemoryRepr.new 1 (some 2)] :=
  ⟨by decide, by decide, by rfl, by decide,
    C3_scan_roundtrip (KVMemoryRepr.new 1 (some 2))
      (serBytes (KVMemoryRepr.new 1 (some 2))) 5
      (by decide) (by decide) (by rfl) (by decide)⟩

/-- C10: the record scanner terminates because every successful
deserialization consumes at least 4 bytes: the 3-byte length prefix plus a
payload of length at least 1 (length 0 is rejected), so the remaining slice
strictly shrinks each iteration. -/
theorem C10_deserialize_consumes_four (bytes : List Nat)
    (e : KVMemoryRepr) (rest : List Nat)
    (h : deserialize bytes = .ok (e, rest)) :
    rest.length + 4 ≤ bytes.length :=
  deserialize_consumes h

/-- Witness for C10 at a concrete buffer. -/
theorem C10_deserialize_consumes_four_witness :
    deserialize (serBytes (KVMemoryRepr.new 3 none) ++ [7, 7])
      = .ok (KVMemoryRepr.new 3 none, [7, 7])
      ∧ ([7, 7] : List Nat).length + 4
        ≤ (serBytes (KVMemoryRepr.new 3 none) ++ [7, 7]).length :=
  ⟨by rfl,
    C10_deserialize_consumes_four
      (serBytes (KVMemoryRepr.new 3 none) ++ [7, 7])
      (KVMemoryRepr.new 3 none) [7, 7] (by rfl)⟩

/-- `FindResult` from `functions.rs`. -/
inductive FindResult where
  | found (v : Nat)
  | tombstone
  | none
deriving DecidableEq

/-- Models Rust `slice::binary_search_by_key`: `.ok i` when the key sits at
position `i`, `.error p` with `p` the insertion point otherwise.  On the
strictly sorted lists this development uses it, this is exactly the value
the Rust binary search returns (for unsorted input Rust leaves the result
unspecified). -/
def binSearch (keys : List Nat) (k : Nat) : Except Nat Nat :=
  if keys[keys.countP (fun x => decide (x < k))]? = some k then
    .ok (keys.countP (fun x => decide (x < k)))
  else
    .error (keys.countP (fun x => decide (x < k)))

theorem countP_lt_getD {K : List Nat} {k : Nat} (hs : K.Pairwise (· < ·))
    {j : Nat} (hj : j < K.countP (fun x => decide (x < k))) :
    K.getD j 0 < k := by
  induction K generalizing j with
  | nil => simp [List.countP_nil] at hj
  | cons x rest ih =>
    have hxr : ∀ e ∈ rest, x < e := List.pairwise_cons.mp hs |>.1
    by_cases hx : x < k
    · cases j with
      | zero => simpa [List.getD]
      | succ j' =>
        rw [List.countP_cons, if_pos (by simpa using hx)] at hj
        exact ih hs.of_cons (by omega)
    · have hrest : rest.countP (fun e => decide (e < k)) = 0 := by
        rw [List.countP_eq_zero]
        intro e he
        have := hxr e he
        simp only [decide_eq_true_eq]
        omega
      rw [List.countP_cons, hrest, if_neg (by simpa using hx)] at hj
      omega

theorem countP_lt_le_getD {K : List Nat} {k : Nat} (hs : K.Pairwise (· < ·))
    {j : Nat} (hj1 : K.countP (fun x => decide (x < k)) ≤ j)
    (hj2 : j < K.length) : k ≤ K.getD j 0 := by
  induction K generalizing j with
  | nil => simp at hj2
  | cons x rest ih =>
    have hxr : ∀ e ∈ rest, x < e := List.pairwise_cons.mp hs |>.1
    by_cases hx : x < k
    · rw [List.countP_cons, if_pos (by simpa using hx)] at hj1
      cases j with
      | zero => omega
      | succ j' =>
        exact ih hs.of_cons (by omega) (by simpa using hj2)
    · cases j with
      | zero => simpa [List.getD] using Nat.le_of_not_lt hx
      | succ j' =>
        have hj2' : j' < rest.length := by simpa using hj2
        have hmem : rest.getD j' 0 ∈ rest := by
          rw [List.getD_eq_getElem?_getD, List.getElem?_eq_getElem hj2']
          exact List.getElem_mem hj2'
        have := hxr _ hmem
        have hxk : k ≤ x := Nat.le_of_not_lt hx
        simp only [List.getD_cons_succ]
        omega

theorem countP_lt_eq_of_getElem {K : List Nat} {k : Nat}
    (hs : K.Pairwise (· < ·)) {i : Nat} (h : K[i]? = some k) :
    K.countP (fun x => decide (x < k)) = i := by
  induction K generalizing i with
  | nil => simp at h
  | cons x rest ih =>
    have hxr : ∀ e ∈ rest, x < e := List.pairwise_cons.mp hs |>.1
    cases i with
    | zero =>
      simp only [List.getElem?_cons_zero, Option.some.injEq] at h
      subst h
      have hrest : rest.countP (fun e => decide (e < x)) = 0 := by
        rw [List.countP_eq_zero]
        intro e he
        have := hxr e he
        simp only [decide_eq_true_eq]
        omega
      simp [List.countP_cons, hrest]
    | succ i' =>
      simp only [List.getElem?_cons_succ] at h
      have hmem : k ∈ rest := by
        have hlt : i' < rest.length := by
          by_contra hge
          rw [List.getElem?_eq_none (by omega)] at h
          exact absurd h (by simp)
        rw [List.getElem?_eq_getElem hlt] at h
        injection h with h2
        rw [← h2]
        exact List.getElem_mem hlt
      have hk : x < k := hxr k hmem
      rw [List.countP_cons, ih hs.of_cons h]
      simp [hk]

theorem binSearch_ok_of_getElem {K : List Nat} {k : Nat} {i : Nat}
    (hs : K.Pairwise (· < ·)) (h : K[i]? = some k) :
    binSearch K k = .ok i := by
  have hc := countP_lt_eq_of_getElem hs h
  unfold binSearch
  rw [hc, if_pos h]

theorem binSearch_error_of_not_mem {K : List Nat} {k : Nat}
    (hk : k ∉ K) :
    binSearch K k = .error (K.countP (fun x => decide (x < k))) := by
  unfold binSearch
  rw [if_neg]
  intro hcon
  exact hk (by
    have := List.getElem?_mem hcon
    exact this)

/-- A sparse index: sorted list of (key, byte-offset) pairs. -/
abbrev Index := List (Nat × Nat)

/-- Loop body of `entries_to_index_and_data` in `sstables/mod.rs`: serialize
each entry, sample an index entry whenever `index_interval > 0` and
`i % index_interval == 0` (at the entry's starting byte offset), accumulate
the run buffer, and insert every key into the bloom filter (modelled by its
key list, see `SSTable`). -/
def entriesLoop (interval : Nat) :
    Nat → Nat → List KVMemoryRepr → Except Error (Index × List Nat × List Nat)
  | _, _, [] => .ok ([], [], [])
  | i, off, e :: rest =>
      match serialize e with
      | .error er => .error er
      | .ok serialized =>
          match entriesLoop interval (i + 1) (off + serialized.length) rest with
          | .error er => .error er
          | .ok (idx, data, keys) =>
              .ok ((if 0 < interval ∧ i % interval = 0
                      then (e.key, off) :: idx else idx),
                serialized ++ data, e.key :: keys)

/-- `entries_to_index_and_data` from `sstables/mod.rs`:
`index_size = max(FILE_SIZE_BYTES / TABLE_TO_INDEX_RATIO, 1)` and
`index_interval = N / index_size`. -/
def entries_to_index_and_data (entries : List KVMemoryRepr) :
    Except Error (Index × List Nat × List Nat) :=
  entriesLoop (entries.length / max (FILE_SIZE_BYTES / TABLE_TO_INDEX_RATIO) 1)
    0 0 entries

/-- An SSTable (`SSTable` in `sstables/mod.rs`): id, sparse index, file
contents (`data`, standing for the run file), file size, and the bloom
filter.  The bloom filter of the external `bloomfilter` crate is modelled by
the exact key set of the run (`bloomKeys`); the spec only requires
`bloom.check(k)` to be true for every key in the run, which this model
satisfies. -/
structure SSTable where
  id : Nat
  index : Index
  data : List Nat
  file_size : Nat
  bloomKeys : List Nat
deriving DecidableEq

instance : Inhabited SSTable := ⟨⟨0, [], [], 0, []⟩⟩

/-- Build an `SSTable` from a record vector: `entries_to_index_and_data`
followed by `create_sstable_file` (a file of exactly the buffer's length,
written at offset 0).  Common body of `log_file_to_sstable` and
`merge_sstables`. -/
def sstableOfEntries (id : Nat) (entries : List KVMemoryRepr) :
    Except Error SSTable :=
  match entries_to_index_and_data entries with
  | .error er => .error er
  | .ok (index, sstable_data, bloom) =>
      .ok ⟨id, index, sstable_data, sstable_data.length, bloom⟩

/-- `index_to_range` from `sstables/mod.rs`: binary-search the index; on an
exact hit the window starts at that entry's offset and ends at the next
entry's offset (if any); on a miss at insertion point `idx` it starts at
`index[idx-1]`'s offset (or 0 if `idx == 0`) and ends at `index[idx]`'s
offset (or `None`, meaning the file size, if `idx == len`).  The source
indexes `index[idx]` directly (always in bounds when the binary search hits);
the model uses `getD` there. -/
def index_to_range (key : Nat) (index : Index) : Nat × Option Nat :=
  match binSearch (index.map Prod.fst) key with
  | .ok idx => ((index.getD idx (0, 0)).2, (index[idx + 1]?).map Prod.snd)
  | .error idx =>
      (if 0 < idx then (index.getD (idx - 1) (0, 0)).2 else 0,
       (index[idx]?).map Prod.snd)

/-- `SSTable::find` from `sstables/mod.rs`: bloom check, window computation
via `index_to_range`, positional read of the window (`drop`/`take` on the
file contents), scan into records, binary search by key.  The source's
`read_exact_at` reads exactly `range_end - range_start` bytes at offset
`range_start`, which equals the `drop`/`take` below for the in-bounds
windows of well-formed runs. -/
def SSTable.find (t : SSTable) (key : Nat) : Except Error FindResult :=
  if ¬ t.bloomKeys.contains key then .ok .none
  else
    match deserialize_entries_from_bytes
        ((t.data.drop (index_to_range key t.index).1).take
          (((index_to_range key t.index).2).getD t.file_size
            - (index_to_range key t.index).1)) with
    | .error er => .error er
    | .ok entries =>
        match binSearch (entries.map KVMemoryRepr.key) key with
        | .ok i =>
            match (entries.getD i default).value with
            | some v => .ok (.found v)
            | Option.none => .ok .tombstone
        | .error _ => .ok .none

/-- The result a direct association-list lookup would give on the record
vector backing a run. -/
def lookupResult (entries : List KVMemoryRepr) (k : Nat) : FindResult :=
  match entries.find? (fun e => e.key = k) with
  | some e =>
      match e.value with
      | some v => .found v
      | Option.none => .tombstone
  | Option.none => .none

/-- Key of the record at position `p` (junk default out of range). -/
def keyAt (l : List KVMemoryRepr) (p : Nat) : Nat :=
  (l.getD p default).key

/-- Byte offset of the record at position `i` inside the serialized run:
the total size of the serialized records before it. -/
def offsetAt (l : List KVMemoryRepr) (i : Nat) : Nat :=
  ((l.take i).flatMap serBytes).length

/-- Strict key-sortedness of a record vector. -/
def StrictSorted (l : List KVMemoryRepr) : Prop :=
  l.Pairwise (fun a b => a.key < b.key)

theorem offsetAt_zero (l : List KVMemoryRepr) : offsetAt l 0 = 0 := by
  simp [offsetAt]

theorem offsetAt_length (l : List KVMemoryRepr) :
    offsetAt l l.length = (l.flatMap serBytes).length := by
  simp [offsetAt]

theorem offsetAt_cons (e : KVMemoryRepr) (l : List KVMemoryRepr) (i : Nat) :
    offsetAt (e :: l) (i + 1) = (serBytes e).length + offsetAt l i := by
  simp [offsetAt, List.flatMap_cons]

theorem keyAt_cons (e : KVMemoryRepr) (l : List KVMemoryRepr) (p : Nat) :
    keyAt (e :: l) (p + 1) = keyAt l p := by
  simp [keyAt]

/-- The index entries produced by `entriesLoop`, as a pure function. -/
def specIndexFrom (interval : Nat) : Nat → Nat → List KVMemoryRepr → Index
  | _, _, [] => []
  | i, off, e :: rest =>
      (if 0 < interval ∧ i % interval = 0 then [(e.key, off)] else [])
        ++ specIndexFrom interval (i + 1) (off + (serBytes e).length) rest

theorem entriesLoop_eq (interval : Nat) (i off : Nat)
    (l : List KVMemoryRepr) :
    entriesLoop interval i off l
      = .ok (specIndexFrom interval i off l, l.flatMap serBytes,
          l.map KVMemoryRepr.key) := by
  induction l generalizing i off with
  | nil => simp [entriesLoop, specIndexFrom]
  | cons e rest ih =>
    rw [entriesLoop, serialize_eq_ok, specIndexFrom]
    simp only [ih]
    by_cases h : 0 < interval ∧ i % interval = 0 <;>
      simp [h, List.flatMap_cons]

/-- Sampling characterization of the produced index: it is the image of a
strictly increasing, in-bounds list of record positions under
`p ↦ (key_p, offset_p)`. -/
theorem specIndexFrom_sampling (interval : Nat) (l : List KVMemoryRepr) :
    ∀ i off, ∃ ps : List Nat, ps.Pairwise (· < ·)
      ∧ (∀ p ∈ ps, p < l.length)
      ∧ specIndexFrom interval i off l
          = ps.map (fun p => (keyAt l p, off + offsetAt l p)) := by
  induction l with
  | nil => intro i off; exact ⟨[], by simp, by simp, by simp [specIndexFrom]⟩
  | cons e rest ih =>
    intro i off
    obtain ⟨ps', hps'sorted, hps'lt, hps'eq⟩ :=
      ih (i + 1) (off + (serBytes e).length)
    have hmapeq : ps'.map
        (fun p => (keyAt rest p, off + (serBytes e).length + offsetAt rest p))
        = (ps'.map (· + 1)).map
            (fun q => (keyAt (e :: rest) q, off + offsetAt (e :: rest) q)) := by
      rw [List.map_map]
      apply List.map_congr_left
      intro p _
      simp [Function.comp, keyAt_cons, offsetAt_cons]
      omega
    by_cases hc : 0 < interval ∧ i % interval = 0
    · refine ⟨0 :: ps'.map (· + 1), ?_, ?_, ?_⟩
      · rw [List.pairwise_cons]
        constructor
        · intro q hq
          obtain ⟨p, _, rfl⟩ := List.mem_map.mp hq
          omega
        · exact List.Pairwise.map _ (fun a b h => by omega) hps'sorted
      · intro p hp
        rcases List.mem_cons.mp hp with rfl | hp
        · simp
        · obtain ⟨q, hq, rfl⟩ := List.mem_map.mp hp
          have := hps'lt q hq
          simp
          omega
      · rw [specIndexFrom, if_pos hc, hps'eq, hmapeq]
        simp [keyAt, offsetAt]
    · refine ⟨ps'.map (· + 1), ?_, ?_, ?_⟩
      · exact List.Pairwise.map _ (fun a b h => by omega) hps'sorted
      · intro p hp
        obtain ⟨q, hq, rfl⟩ := List.mem_map.mp hp
        have := hps'lt q hq
        simp
        omega
      · rw [specIndexFrom, if_neg hc, hps'eq, hmapeq]
        simp

theorem keyAt_eq {l : List KVMemoryRepr} {j : Nat} (h : j < l.length) :
    keyAt l j = (l[j]).key := by
  simp [keyAt, List.getD_eq_getElem?_getD, List.getElem?_eq_getElem h]

theorem keyAt_lt_keyAt {l : List KVMemoryRepr} (hs : StrictSorted l)
    {p q : Nat} (hpq : p < q) (hq : q < l.length) :
    keyAt l p < keyAt l q := by
  have hp : p < l.length := lt_trans hpq hq
  rw [keyAt_eq hp, keyAt_eq hq]
  exact List.pairwise_iff_getElem.mp hs p q hp hq hpq

theorem pos_lt_of_keyAt_lt {l : List KVMemoryRepr} (hs : StrictSorted l)
    {p q : Nat} (hp : p < l.length) (hq : q < l.length)
    (h : keyAt l p < keyAt l q) : p < q := by
  rcases lt_trichotomy p q with hlt | rfl | hgt
  · exact hlt
  · omega
  · exact absurd (keyAt_lt_keyAt hs hgt hp) (by omega)

theorem pos_eq_of_keyAt_eq {l : List KVMemoryRepr} (hs : StrictSorted l)
    {p q : Nat} (hp : p < l.length) (hq : q < l.length)
    (h : keyAt l p = keyAt l q) : p = q := by
  rcases lt_trichotomy p q with hlt | rfl | hgt
  · exact absurd (keyAt_lt_keyAt hs hlt hq) (by omega)
  · rfl
  · exact absurd (keyAt_lt_keyAt hs hgt hp) (by omega)

theorem binSearch_ok_inv {K : List Nat} {k m : Nat}
    (h : binSearch K k = .ok m) :
    K[m]? = some k ∧ m = K.countP (fun x => decide (x < k)) := by
  unfold binSearch at h
  split at h
  · next hcond =>
    injection h with h2
    subst h2
    exact ⟨hcond, rfl⟩
  · exact absurd h (by simp)

theorem binSearch_error_inv {K : List Nat} {k m : Nat}
    (h : binSearch K k = .error m) :
    m = K.countP (fun x => decide (x < k)) ∧ ¬ K[m]? = some k := by
  unfold binSearch at h
  split at h
  · exact absurd h (by simp)
  · next hcond =>
    injection h with h2
    subst h2
    exact ⟨rfl, hcond⟩

/-- Window correctness of `index_to_range` over a sampled index: the window
always covers the position of the searched key. -/
theorem index_window {l : List KVMemoryRepr} (hs : StrictSorted l)
    {ps : List Nat} (hps : ps.Pairwise (· < ·))
    (hlt : ∀ p ∈ ps, p < l.length) {j : Nat} (hj : j < l.length)
    {idx : Index}
    (hidx : idx = ps.map (fun p => (keyAt l p, offsetAt l p))) :
    ∃ a b, a ≤ j ∧ j < b ∧ b ≤ l.length
      ∧ (index_to_range (keyAt l j) idx).1 = offsetAt l a
      ∧ ((index_to_range (keyAt l j) idx).2).getD
          ((l.flatMap serBytes).length) = offsetAt l b := by
  have hK : idx.map Prod.fst = ps.map (keyAt l) := by
    rw [hidx, List.map_map]
    rfl
  have hpsk : ps.Pairwise (fun p q => keyAt l p < keyAt l q) := by
    refine (List.Pairwise.imp_of_mem ?_ hps)
    intro p q hp hq hpq
    exact keyAt_lt_keyAt hs hpq (hlt q hq)
  have hKsorted : (ps.map (keyAt l)).Pairwise (· < ·) :=
    List.pairwise_map.mpr hpsk
  have hlen : idx.length = ps.length := by rw [hidx, List.length_map]
  cases hbs : binSearch (ps.map (keyAt l)) (keyAt l j) with
  | ok m =>
    have hrange : index_to_range (keyAt l j) idx
        = ((idx.getD m (0, 0)).2, (idx[m + 1]?).map Prod.snd) := by
      unfold index_to_range
      rw [hK, hbs]
    obtain ⟨hget, -⟩ := binSearch_ok_inv hbs
    rw [List.getElem?_map] at hget
    cases hp : ps[m]? with
    | none => rw [hp] at hget; exact absurd hget (by simp)
    | some p =>
      rw [hp] at hget
      simp at hget
      have hpmem : p ∈ ps := List.getElem?_mem hp
      have hplen : p < l.length := hlt p hpmem
      have hpj : p = j := pos_eq_of_keyAt_eq hs hplen hj hget
      subst hpj
      have hstart : idx.getD m (0, 0) = (keyAt l p, offsetAt l p) := by
        rw [List.getD_eq_getElem?_getD, hidx, List.getElem?_map, hp]
        rfl
      cases hq : ps[m + 1]? with
      | some q =>
        have hqmem : q ∈ ps := List.getElem?_mem hq
        have hq1 : m + 1 < ps.length := by
          by_contra hcon
          rw [List.getElem?_eq_none (by omega)] at hq
          exact absurd hq (by simp)
        have hqlen : q < l.length := hlt q hqmem
        have hpq : p < q := by
          have hrel := List.pairwise_iff_getElem.mp hps m (m + 1)
            (by omega) hq1 (by omega)
          rw [List.getElem?_eq_getElem (by omega : m < ps.length)] at hp
          injection hp with hp2
          rw [List.getElem?_eq_getElem hq1] at hq
          injection hq with hq2
          rw [hp2, hq2] at hrel
          exact hrel
        refine ⟨p, q, le_rfl, hpq, hqlen.le, ?_, ?_⟩
        · rw [hrange, hstart]
        · rw [hrange, hidx, List.getElem?_map, hq]
          rfl
      | none =>
        refine ⟨p, l.length, le_rfl, hj, le_rfl, ?_, ?_⟩
        · rw [hrange, hstart]
        · rw [hrange, hidx, List.getElem?_map, hq]
          simp [offsetAt_length]
  | error m =>
    have hrange : index_to_range (keyAt l j) idx
        = (if 0 < m then (idx.getD (m - 1) (0, 0)).2 else 0,
            (idx[m]?).map Prod.snd) := by
      unfold index_to_range
      rw [hK, hbs]
    obtain ⟨hm, hne⟩ := binSearch_error_inv hbs
    have hmle : m ≤ ps.length := by
      rw [hm]
      exact le_trans (List.countP_le_length _) (by rw [List.length_map])
    have hend_lt : ∀ (hmK : m < ps.length),
        j < ps[m] ∧ ps[m] < l.length
          ∧ (idx[m]?).map Prod.snd = some (offsetAt l ps[m]) := by
      intro hmK
      have hq : ps[m]? = some ps[m] := List.getElem?_eq_getElem hmK
      have hqmem : ps[m] ∈ ps := List.getElem_mem hmK
      have hqlen : ps[m] < l.length := hlt _ hqmem
      have hkge : keyAt l j ≤ keyAt l ps[m] := by
        have := @countP_lt_le_getD (ps.map (keyAt l)) (keyAt l j) hKsorted
          m (by rw [← hm]) (by rw [List.length_map]; exact hmK)
        rw [List.getD_eq_getElem?_getD, List.getElem?_map, hq] at this
        exact this
      have hkne : keyAt l ps[m] ≠ keyAt l j := by
        intro hcon
        apply hne
        rw [List.getElem?_map, hq]
        simp [hcon]
      have hjq : j < ps[m] :=
        pos_lt_of_keyAt_lt hs hj hqlen (by omega)
      refine ⟨hjq, hqlen, ?_⟩
      rw [hidx, List.getElem?_map, hq]
      rfl
    have hend_ge : ¬ m < ps.length →
        (idx[m]?).map Prod.snd = Option.none := by
      intro hmK
      rw [hidx, List.getElem?_map, List.getElem?_eq_none (by simpa using hmK)]
      rfl
    by_cases hm0 : 0 < m
    · have hm1 : m - 1 < ps.length := by omega
      have hp : ps[m - 1]? = some ps[m - 1] := List.getElem?_eq_getElem hm1
      have hpmem : ps[m - 1] ∈ ps := List.getElem_mem hm1
      have hplen : ps[m - 1] < l.length := hlt _ hpmem
      have hkd : (ps.map (keyAt l)).getD (m - 1) 0 = keyAt l ps[m - 1] := by
        rw [List.getD_eq_getElem?_getD, List.getElem?_map, hp]
        rfl
      have hklt : keyAt l ps[m - 1] < keyAt l j := by
        have := @countP_lt_getD (ps.map (keyAt l)) (keyAt l j) hKsorted
          (m - 1) (by rw [← hm]; omega)
        rw [hkd] at this
        exact this
      have hpj : ps[m - 1] < j := pos_lt_of_keyAt_lt hs hplen hj hklt
      have hstart : idx.getD (m - 1) (0, 0)
          = (keyAt l ps[m - 1], offsetAt l ps[m - 1]) := by
        rw [List.getD_eq_getElem?_getD, hidx, List.getElem?_map, hp]
        rfl
      by_cases hmK : m < ps.length
      · obtain ⟨hjq, hqlen, hendeq⟩ := hend_lt hmK
        refine ⟨ps[m - 1], ps[m], by omega, hjq, hqlen.le, ?_, ?_⟩
        · rw [hrange, if_pos hm0, hstart]
        · rw [hrange, hendeq]
          rfl
      · refine ⟨ps[m - 1], l.length, by omega, hj, le_rfl, ?_, ?_⟩
        · rw [hrange, if_pos hm0, hstart]
        · rw [hrange, hend_ge hmK]
          simp [offsetAt_length]
    · by_cases hmK : m < ps.length
      · obtain ⟨hjq, hqlen, hendeq⟩ := hend_lt hmK
        refine ⟨0, ps[m], by omega, hjq, hqlen.le, ?_, ?_⟩
        · rw [hrange, if_neg hm0, offsetAt_zero]
        · rw [hrange, hendeq]
          rfl
      · refine ⟨0, l.length, by omega, hj, le_rfl, ?_, ?_⟩
        · rw [hrange, if_neg hm0, offsetAt_zero]
        · rw [hrange, hend_ge hmK]
          simp [offsetAt_length]

/-- The byte window `[offset a, offset b)` of the run file is exactly the
serialization of the record slice `[a, b)`. -/
theorem window_bytes (l : List KVMemoryRepr) {a b : Nat}
    (hab : a ≤ b) (hb : b ≤ l.length) :
    ((l.flatMap serBytes).drop (offsetAt l a)).take
        (offsetAt l b - offsetAt l a)
      = ((l.drop a).take (b - a)).flatMap serBytes := by
  have hsplit1 : l.take b = l.take a ++ (l.drop a).take (b - a) := by
    have hba : b = a + (b - a) := by omega
    conv_lhs => rw [hba]
    exact List.take_add l a (b - a)
  have hsplit2 : l = l.take b ++ l.drop b := (List.take_append_drop b l).symm
  have hoffb : offsetAt l b
      = offsetAt l a + (((l.drop a).take (b - a)).flatMap serBytes).length := by
    unfold offsetAt
    rw [hsplit1, List.flatMap_append, List.length_append]
  have hdata : l.flatMap serBytes
      = (l.take a).flatMap serBytes
        ++ (((l.drop a).take (b - a)).flatMap serBytes
          ++ (l.drop b).flatMap serBytes) := by
    conv_lhs => rw [hsplit2, hsplit1]
    rw [List.flatMap_append, List.flatMap_append, List.append_assoc]
  have h2 : offsetAt l b - offsetAt l a
      = (((l.drop a).take (b - a)).flatMap serBytes).length := by omega
  have h1 : offsetAt l a = ((l.take a).flatMap serBytes).length := rfl
  rw [h2, hdata, h1, List.drop_left, List.take_left]

/-- Round trip for a pure concatenation of serialized records. -/
theorem scan_flatMap {w : List KVMemoryRepr}
    (hwf : ∀ e ∈ w, e.wf ∧ e.valid = true) :
    deserialize_entries_from_bytes (w.flatMap serBytes) = .ok w := by
  have := scan_flatMap_serBytes hwf 0
  simpa using this

theorem find?_key_getElem {l : List KVMemoryRepr} (hs : StrictSorted l)
    {j : Nat} (hj : j < l.length) :
    l.find? (fun e => e.key = (l[j]).key) = some l[j] := by
  induction l generalizing j with
  | nil => simp at hj
  | cons x rest ih =>
    cases j with
    | zero => simp [List.find?_cons]
    | succ j' =>
      have hj' : j' < rest.length := by simpa using hj
      have hmem : rest[j'] ∈ rest := List.getElem_mem hj'
      have hxk : x.key < (rest[j']).key :=
        (List.pairwise_cons.mp hs).1 _ hmem
      have hgoal : ((x :: rest)[j' + 1] : KVMemoryRepr) = rest[j'] := by
        simp
      rw [hgoal, List.find?_cons]
      have hne : (decide (x.key = (rest[j']).key)) = false := by
        simp only [decide_eq_false_iff_not]
        omega
      rw [hne]
      exact ih hs.of_cons hj'

theorem find?_key_eq_none {l : List KVMemoryRepr} {k : Nat}
    (h : k ∉ l.map KVMemoryRepr.key) :
    l.find? (fun e => e.key = k) = Option.none := by
  rw [List.find?_eq_none]
  intro x hx
  simp only [decide_eq_true_eq]
  intro hxk
  exact h (List.mem_map.mpr ⟨x, hx, hxk⟩)

/-- C2 core: on a run built by the §4.2 construction from a strictly sorted
well-formed record vector, `find` coincides with direct lookup in the
vector. -/
theorem find_eq_lookup {l : List KVMemoryRepr} (hsorted : StrictSorted l)
    (hwf : ∀ e ∈ l, e.wf ∧ e.valid = true) {id : Nat} {T : SSTable}
    (hT : sstableOfEntries id l = .ok T) (k : Nat) :
    T.find k = .ok (lookupResult l k) := by
  have hloop := entriesLoop_eq
    (l.length / max (FILE_SIZE_BYTES / TABLE_TO_INDEX_RATIO) 1) 0 0 l
  unfold sstableOfEntries entries_to_index_and_data at hT
  rw [hloop] at hT
  injection hT with hT2
  subst hT2
  by_cases hk : k ∈ l.map KVMemoryRepr.key
  · obtain ⟨e, he, hek⟩ := List.mem_map.mp hk
    obtain ⟨j, hj, hje⟩ := List.getElem_of_mem he
    have hkey : (l[j]).key = k := by rw [hje, hek]
    obtain ⟨ps, hps, hpslt, hpseq⟩ := specIndexFrom_sampling
      (l.length / max (FILE_SIZE_BYTES / TABLE_TO_INDEX_RATIO) 1) l 0 0
    have hpseq' : specIndexFrom
        (l.length / max (FILE_SIZE_BYTES / TABLE_TO_INDEX_RATIO) 1) 0 0 l
        = ps.map (fun p => (keyAt l p, offsetAt l p)) := by
      rw [hpseq]
      simp
    obtain ⟨a, b, haj, hjb, hble, hstart, hend⟩ :=
      index_window hsorted hps hpslt hj hpseq'
    have hkk : keyAt l j = k := by rw [keyAt_eq hj, hkey]
    rw [hkk] at hstart hend
    unfold SSTable.find
    rw [if_neg (by simp [hk])]
    simp only [hstart, hend]
    rw [window_bytes l (by omega) hble]
    have hsub : ((l.drop a).take (b - a)).Sublist l :=
      (List.take_sublist _ _).trans (List.drop_sublist _ _)
    have hmidwf : ∀ e2 ∈ (l.drop a).take (b - a), e2.wf ∧ e2.valid = true :=
      fun e2 he2 => hwf e2 (hsub.subset he2)
    rw [scan_flatMap hmidwf]
    dsimp only
    have hja : j - a < ((l.drop a).take (b - a)).length := by
      rw [List.length_take, List.length_drop]
      omega
    have hmidj : ((l.drop a).take (b - a))[j - a]? = some l[j] := by
      rw [List.getElem?_eq_getElem hja]
      congr 1
      rw [List.getElem_take, List.getElem_drop]
      congr 1
      omega
    have hmidsorted : StrictSorted ((l.drop a).take (b - a)) :=
      List.Pairwise.sublist hsub hsorted
    have hmidK : (((l.drop a).take (b - a)).map KVMemoryRepr.key).Pairwise
        (· < ·) :=
      List.pairwise_map.mpr hmidsorted
    have hgetk : (((l.drop a).take (b - a)).map KVMemoryRepr.key)[j - a]?
        = some k := by
      rw [List.getElem?_map, hmidj]
      simp [hkey]
    rw [binSearch_ok_of_getElem hmidK hgetk]
    dsimp only
    have hgetd : ((l.drop a).take (b - a)).getD (j - a) default = l[j] := by
      rw [List.getD_eq_getElem?_getD, hmidj]
      rfl
    rw [hgetd]
    unfold lookupResult
    rw [← hkey, find?_key_getElem hsorted hj]
    cases hv : (l[j]).value <;> simp [hv]
  · unfold SSTable.find
    rw [if_pos (by simp [hk])]
    unfold lookupResult
    rw [find?_key_eq_none hk]

/-- C2: for every sorted run built by the §4.2 construction from a strictly
key-sorted (hence deduplicated) well-formed record vector, `find(key)`
returns `Found v` if the vector contains `(key, some v)`, `Tombstone` if it
contains `(key, none)`, and `None` if no record has that key; the lookup
window is the one computed by `index_to_range` (binary search of the index,
start at the hit's offset or `index[p-1].offset`/0, end at `index[p].offset`
or the file size). -/
theorem C2_find_on_sorted_run (l : List KVMemoryRepr)
    (hsorted : StrictSorted l) (hwf : ∀ e ∈ l, e.wf ∧ e.valid = true)
    (id : Nat) (T : SSTable) (hT : sstableOfEntries id l = .ok T)
    (k : Nat) :
    T.find k = .ok (lookupResult l k) :=
  find_eq_lookup hsorted hwf hT k

/-- Witness for C2 on a concrete two-record run: key 1 holds value 10, key 5
is a tombstone, key 3 is absent. -/
theorem C2_find_on_sorted_run_witness :
    sstableOfEntries 7 [KVMemoryRepr.new 1 (some 10), KVMemoryRepr.new 5 Option.none]
        = .ok ((sstableOfEntries 7
            [KVMemoryRepr.new 1 (some 10), KVMemoryRepr.new 5 Option.none]).toOption.getD default)
      ∧ ((sstableOfEntries 7
            [KVMemoryRepr.new 1 (some 10), KVMemoryRepr.new 5 Option.none]).toOption.getD default).find 5
          = .ok (lookupResult
              [KVMemoryRepr.new 1 (some 10), KVMemoryRepr.new 5 Option.none] 5)
      ∧ lookupResult
          [KVMemoryRepr.new 1 (some 10), KVMemoryRepr.new 5 Option.none] 5
          = .tombstone := by
  refine ⟨by rfl, ?_, by rfl⟩
  exact C2_find_on_sorted_run
    [KVMemoryRepr.new 1 (some 10), KVMemoryRepr.new 5 Option.none]
    (by unfold StrictSorted; decide) (by decide) 7 _ (by rfl) 5

/-- Positional characterization of the produced index: an entry is emitted
at position `i` exactly when the interval is positive and `i` is a multiple
of it, carrying that record's key and byte offset. -/
theorem specIndexFrom_eq_filter (I : Nat) (l : List KVMemoryRepr) :
    ∀ i0 off0, specIndexFrom I i0 off0 l
      = ((List.range l.length).filter
          (fun d => decide (0 < I) && decide ((i0 + d) % I = 0))).map
            (fun d => (keyAt l d, off0 + offsetAt l d)) := by
  induction l with
  | nil => intro i0 off0; simp [specIndexFrom]
  | cons e rest ih =>
    intro i0 off0
    have hfun : ((fun d => decide (0 < I) && decide ((i0 + d) % I = 0))
        ∘ Nat.succ) = fun d => decide (0 < I) && decide ((i0 + 1 + d) % I = 0) := by
      funext d
      simp only [Function.comp]
      have harg : i0 + Nat.succ d = i0 + 1 + d := by omega
      rw [harg]
    have hfun2 : ((fun d => (keyAt (e :: rest) d, off0 + offsetAt (e :: rest) d))
        ∘ Nat.succ)
        = fun d => (keyAt rest d, off0 + (serBytes e).length + offsetAt rest d) := by
      funext d
      simp only [Function.comp]
      rw [keyAt_cons, offsetAt_cons]
      congr 1
      omega
    rw [specIndexFrom, ih (i0 + 1) (off0 + (serBytes e).length),
      List.length_cons, List.range_succ_eq_map, List.filter_cons,
      List.filter_map, hfun]
    by_cases hc : 0 < I ∧ i0 % I = 0
    · have hcond : (decide (0 < I) && decide ((i0 + 0) % I = 0)) = true := by
        simp only [Bool.and_eq_true, decide_eq_true_eq]
        exact ⟨hc.1, by simpa using hc.2⟩
      rw [if_pos hc, hcond, if_pos rfl, List.map_cons, List.map_map, hfun2]
      simp [keyAt, offsetAt_zero]
    · have hcond : (decide (0 < I) && decide ((i0 + 0) % I = 0)) = false := by
        rw [Bool.eq_false_iff]
        intro hcon
        simp only [Bool.and_eq_true, decide_eq_true_eq] at hcon
        exact hc ⟨hcon.1, by simpa using hcon.2⟩
      rw [if_neg hc, hcond, if_neg (by simp), List.map_map, hfun2]
      simp

theorem specIndexFrom_eq_nil_of_interval_zero (l : List KVMemoryRepr) :
    ∀ i0 off0, specIndexFrom 0 i0 off0 l = [] := by
  induction l with
  | nil => intro i0 off0; rfl
  | cons e rest ih =>
    intro i0 off0
    rw [specIndexFrom, if_neg (by simp), ih]
    rfl

theorem specIndexFrom_ne_nil (I : Nat) (hI : 0 < I) (e : KVMemoryRepr)
    (rest : List KVMemoryRepr) (off0 : Nat) :
    specIndexFrom I 0 off0 (e :: rest) ≠ [] := by
  rw [specIndexFrom, if_pos ⟨hI, by simp⟩]
  simp

/-- C8 counterexample: a run built from a single record (N = 1 > 0) has an
empty sparse index, because the sampling interval `I = N / 128` is zero. -/
theorem C8_counterexample :
    entries_to_index_and_data [KVMemoryRepr.new 1 (some 2)]
        = .ok (([] : Index), serBytes (KVMemoryRepr.new 1 (some 2)), [1])
      ∧ 0 < ([KVMemoryRepr.new 1 (some 2)] : List KVMemoryRepr).length :=
  ⟨by rfl, by decide⟩

/-- C8 amended: for a run built from a record vector of length N with
sampling interval `I = N / max(1, F/128) = N / 128`, the sparse index is
non-empty iff `N ≥ 128` (equivalently iff `I > 0`), and an index entry is
emitted at position i exactly when `I > 0` and `i mod I == 0`. -/
theorem C8_index_nonempty_iff (l : List KVMemoryRepr) (idx : Index)
    (data keys : List Nat)
    (h : entries_to_index_and_data l = .ok (idx, data, keys)) :
    (idx ≠ [] ↔ 128 ≤ l.length)
      ∧ idx = ((List.range l.length).filter
          (fun i => decide (0 < l.length / 128)
            && decide (i % (l.length / 128) = 0))).map
              (fun i => (keyAt l i, offsetAt l i)) := by
  have hmax : max (FILE_SIZE_BYTES / TABLE_TO_INDEX_RATIO) 1 = 128 := by
    decide
  unfold entries_to_index_and_data at h
  rw [entriesLoop_eq, hmax] at h
  injection h with h2
  simp only [Prod.mk.injEq] at h2
  obtain ⟨hidx, hdata, hkeys⟩ := h2
  subst hidx
  constructor
  · constructor
    · intro hne
      by_contra hlen
      by_cases hI : 0 < l.length / 128
      · have h128 : 128 ≤ l.length := (Nat.div_pos_iff (by omega)).mp hI
        omega
      · have hz : l.length / 128 = 0 := by omega
        rw [hz, specIndexFrom_eq_nil_of_interval_zero] at hne
        exact hne rfl
    · intro hlen
      have hI : 0 < l.length / 128 := Nat.div_pos hlen (by omega)
      cases l with
      | nil => simp at hlen
      | cons e rest =>
        exact specIndexFrom_ne_nil _ (by simpa using hI) e rest 0
  · rw [specIndexFrom_eq_filter]
    simp

/-- Witness for C8's amended statement at N = 1: the index is empty and
1 < 128. -/
theorem C8_index_nonempty_iff_witness :
    (((([] : Index) ≠ []) ↔ 128 ≤ ([KVMemoryRepr.new 1 (some 2)] : List KVMemoryRepr).length)
      ∧ ([] : Index) = ((List.range ([KVMemoryRepr.new 1 (some 2)] : List KVMemoryRepr).length).filter
          (fun i => decide (0 < ([KVMemoryRepr.new 1 (some 2)] : List KVMemoryRepr).length / 128)
            && decide (i % (([KVMemoryRepr.new 1 (some 2)] : List KVMemoryRepr).length / 128) = 0))).map
              (fun i => (keyAt [KVMemoryRepr.new 1 (some 2)] i,
                offsetAt [KVMemoryRepr.new 1 (some 2)] i))) :=
  C8_index_nonempty_iff [KVMemoryRepr.new 1 (some 2)] []
    (serBytes (KVMemoryRepr.new 1 (some 2))) [1] (by rfl)

/-- The record comparison used by `Vec::sort` in
`log_content_to_index_and_data` (`Ord` for `KVMemoryRepr` compares keys
only); `Vec::sort` is a stable merge sort, modelled by `List.mergeSort`. -/
def keyLE (a b : KVMemoryRepr) : Bool := a.key ≤ b.key

/-- The dedup loop of `log_content_to_index_and_data`: walk the sorted
entries, and when the previous kept entry has the same key, overwrite it
with the current (newer) one.  `acc` is the kept list in reverse. -/
def collapseAcc : List KVMemoryRepr → List KVMemoryRepr → List KVMemoryRepr
  | acc, [] => acc.reverse
  | [], e :: rest => collapseAcc [e] rest
  | last :: t, e :: rest =>
      if last.key = e.key then collapseAcc (e :: t) rest
      else collapseAcc (e :: last :: t) rest

/-- Collapse adjacent equal-key duplicates, keeping the last occurrence. -/
def collapse (l : List KVMemoryRepr) : List KVMemoryRepr := collapseAcc [] l

/-- `log_content_to_index_and_data`'s stable sort followed by dedup. -/
def sortDedup (l : List KVMemoryRepr) : List KVMemoryRepr :=
  collapse (l.mergeSort keyLE)

/-- `log_file_to_sstable` from `sstables/mod.rs` on the bytes of the log
file: scan, stable-sort, collapse duplicates, build index + bloom + run
file.  The fresh random id is a parameter. -/
def log_file_to_sstable (id : Nat) (log_file_content : List Nat) :
    Except Error SSTable :=
  match deserialize_entries_from_bytes log_file_content with
  | .error er => .error er
  | .ok entries => sstableOfEntries id (sortDedup entries)

/-- Structural specification of the dedup loop. -/
def keepLast : List KVMemoryRepr → List KVMemoryRepr
  | [] => []
  | [e] => [e]
  | e :: f :: rest =>
      if e.key = f.key then keepLast (f :: rest)
      else e :: keepLast (f :: rest)

theorem collapseAcc_eq (xs : List KVMemoryRepr) :
    ∀ x t, collapseAcc (x :: t) xs = t.reverse ++ keepLast (x :: xs) := by
  induction xs with
  | nil => intro x t; simp [collapseAcc, keepLast]
  | cons e rest ih =>
    intro x t
    rw [collapseAcc]
    by_cases h : x.key = e.key
    · rw [if_pos h, ih, keepLast, if_pos h]
    · rw [if_neg h, ih, keepLast, if_neg h]
      simp

theorem collapse_eq_keepLast (l : List KVMemoryRepr) :
    collapse l = keepLast l := by
  cases l with
  | nil => rfl
  | cons e rest =>
    unfold collapse
    rw [collapseAcc, collapseAcc_eq]
    simp

theorem keepLast_subset {l : List KVMemoryRepr} :
    ∀ x ∈ keepLast l, x ∈ l := by
  induction l with
  | nil => simp [keepLast]
  | cons e rest ih =>
    cases rest with
    | nil => simp [keepLast]
    | cons f rest' =>
      intro x hx
      rw [keepLast] at hx
      by_cases h : e.key = f.key
      · rw [if_pos h] at hx
        exact List.mem_cons_of_mem e (ih x hx)
      · rw [if_neg h] at hx
        rcases List.mem_cons.mp hx with rfl | hx2
        · exact List.mem_cons_self x _
        · exact List.mem_cons_of_mem e (ih x hx2)

theorem keepLast_sorted {l : List KVMemoryRepr}
    (h : l.Pairwise (fun a b => a.key ≤ b.key)) :
    StrictSorted (keepLast l) := by
  induction l with
  | nil => exact List.Pairwise.nil
  | cons e rest ih =>
    cases rest with
    | nil => simp [keepLast, StrictSorted]
    | cons f rest' =>
      rw [keepLast]
      by_cases hk : e.key = f.key
      · rw [if_pos hk]
        exact ih (List.pairwise_cons.mp h).2
      · rw [if_neg hk]
        have hpair := List.pairwise_cons.mp h
        have hfe : e.key < f.key :=
          lt_of_le_of_ne (hpair.1 f (by simp)) hk
        refine List.pairwise_cons.mpr ⟨?_, ih hpair.2⟩
        intro x hx
        have hxmem := keepLast_subset x hx
        rcases List.mem_cons.mp hxmem with rfl | hx2
        · exact hfe
        · have hfx : f.key ≤ x.key :=
            (List.pairwise_cons.mp hpair.2).1 x hx2
          omega

theorem keepLast_filter {l : List KVMemoryRepr}
    (h : l.Pairwise (fun a b => a.key ≤ b.key)) (k : Nat) :
    (keepLast l).filter (fun e => e.key = k)
      = ((l.filter (fun e => e.key = k)).getLast?).toList := by
  induction l with
  | nil => simp [keepLast]
  | cons e rest ih =>
    cases rest with
    | nil =>
      rw [keepLast]
      by_cases hek : e.key = k <;>
        simp [List.filter_cons, hek]
    | cons f rest' =>
      have hpair := List.pairwise_cons.mp h
      rw [keepLast]
      by_cases hk : e.key = f.key
      · rw [if_pos hk, ih hpair.2]
        by_cases hek : e.key = k
        · have hfk : f.key = k := by omega
          simp [List.filter_cons, hek, hfk, List.getLast?_cons_cons]
        · simp [List.filter_cons, hek]
      · rw [if_neg hk]
        by_cases hek : e.key = k
        · have hnone : (f :: rest').filter (fun x => x.key = k) = [] := by
            rw [List.filter_eq_nil_iff]
            intro x hx
            have hfx : f.key ≤ x.key := by
              rcases List.mem_cons.mp hx with rfl | hx2
              · exact le_rfl
              · exact (List.pairwise_cons.mp hpair.2).1 x hx2
            have hfe : e.key < f.key :=
              lt_of_le_of_ne (hpair.1 f (by simp)) hk
            simp only [decide_eq_true_eq]
            omega
          have hnone2 : (keepLast (f :: rest')).filter
              (fun x => x.key = k) = [] := by
            rw [ih hpair.2, hnone]
            rfl
          simp [List.filter_cons, hek, hnone, hnone2]
        · simp [List.filter_cons, hek, ih hpair.2]

theorem keyLE_trans : ∀ a b c : KVMemoryRepr,
    keyLE a b = true → keyLE b c = true → keyLE a c = true := by
  intro a b c hab hbc
  simp only [keyLE, decide_eq_true_eq] at hab hbc ⊢
  omega

theorem keyLE_total : ∀ a b : KVMemoryRepr,
    (keyLE a b || keyLE b a) = true := by
  intro a b
  simp only [keyLE, Bool.or_eq_true, decide_eq_true_eq]
  omega

/-- Stability of the sort, restricted to one key class: the records with a
given key appear in the sorted list exactly as they appear in the input. -/
theorem mergeSort_filter_key (l : List KVMemoryRepr) (k : Nat) :
    (l.mergeSort keyLE).filter (fun e => e.key = k)
      = l.filter (fun e => e.key = k) := by
  set p : KVMemoryRepr → Bool := fun e => decide (e.key = k) with hp
  have hA : (l.filter p).Pairwise (fun a b => keyLE a b = true) := by
    have : ∀ a ∈ l.filter p, ∀ b ∈ l.filter p, keyLE a b = true := by
      intro a ha b hb
      have ha2 := List.of_mem_filter ha
      have hb2 := List.of_mem_filter hb
      simp only [hp, decide_eq_true_eq] at ha2 hb2
      simp only [keyLE, decide_eq_true_eq]
      omega
    exact List.pairwise_of_forall_mem_list this
  have hsub : (l.filter p).Sublist (l.mergeSort keyLE) :=
    List.sublist_mergeSort keyLE_trans keyLE_total hA (List.filter_sublist l)
  have hsub2 : ((l.filter p).filter p).Sublist
      ((l.mergeSort keyLE).filter p) := List.Sublist.filter p hsub
  have hidem : (l.filter p).filter p = l.filter p := by
    rw [List.filter_eq_self]
    intro a ha
    exact (List.mem_filter.mp ha).2
  rw [hidem] at hsub2
  have hlen : ((l.mergeSort keyLE).filter p).length = (l.filter p).length := by
    rw [← List.countP_eq_length_filter, ← List.countP_eq_length_filter]
    exact (List.mergeSort_perm l keyLE).countP_eq p
  exact (hsub2.eq_of_length (by omega)).symm

theorem mergeSort_key_sorted (l : List KVMemoryRepr) :
    (l.mergeSort keyLE).Pairwise (fun a b => a.key ≤ b.key) := by
  have := List.sorted_mergeSort keyLE_trans keyLE_total l
  exact this.imp (fun h => by
    simpa only [keyLE, decide_eq_true_eq] using h)

theorem sortDedup_sorted (l : List KVMemoryRepr) :
    StrictSorted (sortDedup l) := by
  rw [sortDedup, collapse_eq_keepLast]
  exact keepLast_sorted (mergeSort_key_sorted l)

theorem sortDedup_filter (l : List KVMemoryRepr) (k : Nat) :
    (sortDedup l).filter (fun e => e.key = k)
      = ((l.filter (fun e => e.key = k)).getLast?).toList := by
  rw [sortDedup, collapse_eq_keepLast,
    keepLast_filter (mergeSort_key_sorted l), mergeSort_filter_key]

theorem sortDedup_subset (l : List KVMemoryRepr) :
    ∀ x ∈ sortDedup l, x ∈ l := by
  intro x hx
  rw [sortDedup, collapse_eq_keepLast] at hx
  have := keepLast_subset x hx
  exact (List.mergeSort_perm l keyLE).subset this

/-- C4: converting a rotated log file scans its bytes into records in write
order, stable-sorts them by key and collapses adjacent equal-key duplicates
keeping the last (newest) occurrence: the produced run holds, for every key
present in the log, exactly the newest record of that key, with strictly
ascending keys; keys not present yield no record. -/
theorem C4_log_conversion (content : List Nat) (l : List KVMemoryRepr)
    (id : Nat)
    (hscan : deserialize_entries_from_bytes content = .ok l) :
    log_file_to_sstable id content = sstableOfEntries id (sortDedup l)
      ∧ StrictSorted (sortDedup l)
      ∧ ∀ k, (sortDedup l).filter (fun e => e.key = k)
          = ((l.filter (fun e => e.key = k)).getLast?).toList := by
  refine ⟨?_, sortDedup_sorted l, fun k => sortDedup_filter l k⟩
  rw [log_file_to_sstable, hscan]

/-- Witness for C4: a log holding two writes of key 5 (10 then 20) and one
write of key 3; the run keeps only the newest record of key 5. -/
theorem C4_log_conversion_witness :
    deserialize_entries_from_bytes
        (serBytes (KVMemoryRepr.new 5 (some 10))
          ++ (serBytes (KVMemoryRepr.new 3 (some 7))
            ++ (serBytes (KVMemoryRepr.new 5 (some 20)) ++ List.replicate 9 0)))
        = .ok [KVMemoryRepr.new 5 (some 10), KVMemoryRepr.new 3 (some 7),
            KVMemoryRepr.new 5 (some 20)]
      ∧ (sortDedup [KVMemoryRepr.new 5 (some 10), KVMemoryRepr.new 3 (some 7),
            KVMemoryRepr.new 5 (some 20)]).filter (fun e => e.key = 5)
          = [KVMemoryRepr.new 5 (some 20)]
      ∧ StrictSorted (sortDedup [KVMemoryRepr.new 5 (some 10),
          KVMemoryRepr.new 3 (some 7), KVMemoryRepr.new 5 (some 20)]) := by
  have hscan : deserialize_entries_from_bytes
      (serBytes (KVMemoryRepr.new 5 (some 10))
        ++ (serBytes (KVMemoryRepr.new 3 (some 7))
          ++ (serBytes (KVMemoryRepr.new 5 (some 20)) ++ List.replicate 9 0)))
      = .ok [KVMemoryRepr.new 5 (some 10), KVMemoryRepr.new 3 (some 7),
          KVMemoryRepr.new 5 (some 20)] := by rfl
  have h := C4_log_conversion _ _ 1 hscan
  refine ⟨hscan, ?_, h.2.1⟩
  rw [h.2.2 5]
  rfl

/-- First pass of the merge loop in `merge_sstable_contents`
(`compactor.rs`): fold over the peeked heads computing the minimum key. -/
def minStep (acc : Option Nat) (l : List KVMemoryRepr) : Option Nat :=
  match l.head? with
  | Option.none => acc
  | some kv =>
      match acc with
      | Option.none => some kv.key
      | some m => if kv.key < m then some kv.key else acc

def minHeadKey (lists : List (List KVMemoryRepr)) : Option Nat :=
  lists.foldl minStep Option.none

/-- Second pass of the merge loop: consume every head equal to the minimum
key; the first (newest) one popped is the value to save. -/
def popMin : List (List KVMemoryRepr) → Nat
    → Option KVMemoryRepr × List (List KVMemoryRepr)
  | [], _ => (Option.none, [])
  | l :: rest, mk =>
      match l with
      | [] => ((popMin rest mk).1, [] :: (popMin rest mk).2)
      | hd :: tl =>
          if hd.key = mk then (some hd, tl :: (popMin rest mk).2)
          else ((popMin rest mk).1, (hd :: tl) :: (popMin rest mk).2)

def sumLen (lists : List (List KVMemoryRepr)) : Nat :=
  (lists.map List.length).sum

/-- The k-way merge loop of `merge_sstable_contents`, with a structural
`fuel` parameter standing for the source's unbounded loop: each iteration
consumes at least one record (`popMin_sumLen_lt`), so
`sumLen lists + 1` fuel always suffices. -/
def mergeLoop (save_tombstones : Bool) :
    Nat → List (List KVMemoryRepr) → List KVMemoryRepr
  | 0, _ => []
  | fuel + 1, lists =>
      match minHeadKey lists with
      | Option.none => []
      | some mk =>
          match (popMin lists mk).1 with
          | some kv =>
              if save_tombstones || kv.value.isSome then
                kv :: mergeLoop save_tombstones fuel (popMin lists mk).2
              else mergeLoop save_tombstones fuel (popMin lists mk).2
          | Option.none => mergeLoop save_tombstones fuel (popMin lists mk).2

/-- `merge_sstable_contents` from `compactor.rs`: lists are expected newest
first, each sorted by key. -/
def merge_sstable_contents (lists : List (List KVMemoryRepr))
    (save_tombstones : Bool) : List KVMemoryRepr :=
  mergeLoop save_tombstones (sumLen lists + 1) lists

/-- First-hit lookup across the run contents, newest first. -/
def listsLookup (lists : List (List KVMemoryRepr)) (k : Nat) :
    Option KVMemoryRepr :=
  lists.findSome? (fun l => l.find? (fun e => e.key = k))

theorem minFold_le {lists : List (List KVMemoryRepr)} {acc : Option Nat}
    {mk : Nat} (h : lists.foldl minStep acc = some mk) :
    (∀ l ∈ lists, ∀ hd ∈ l.head?, mk ≤ hd.key)
      ∧ (∀ m0, acc = some m0 → mk ≤ m0) := by
  induction lists generalizing acc with
  | nil =>
    simp only [List.foldl_nil] at h
    exact ⟨by simp, fun m0 hm0 => by rw [hm0] at h; injection h with h2; omega⟩
  | cons l ls ih =>
    rw [List.foldl_cons] at h
    obtain ⟨ih1, ih2⟩ := ih h
    have hstep : ∀ m0, minStep acc l = some m0 → mk ≤ m0 := ih2
    constructor
    · intro l2 hl2 hd hhd
      rcases List.mem_cons.mp hl2 with rfl | hl2'
      · have hl : l2.head? = some hd := Option.mem_def.mp hhd
        cases hacc : acc with
        | none => exact hstep hd.key (by simp [minStep, hl, hacc])
        | some m =>
          by_cases hlt : hd.key < m
          · exact hstep hd.key (by simp [minStep, hl, hacc, hlt])
          · have h1 := hstep m (by simp [minStep, hl, hacc, hlt])
            omega
      · exact ih1 l2 hl2' hd hhd
    · intro m0 hm0
      subst hm0
      cases hl : l.head? with
      | none => exact hstep m0 (by simp [minStep, hl])
      | some hd =>
        by_cases hlt : hd.key < m0
        · have := hstep hd.key (by simp [minStep, hl, hlt])
          omega
        · exact hstep m0 (by simp [minStep, hl, hlt])

theorem minFold_attained {lists : List (List KVMemoryRepr)} {acc : Option Nat}
    {mk : Nat} (h : lists.foldl minStep acc = some mk) :
    acc = some mk ∨ ∃ l ∈ lists, ∃ hd ∈ l.head?, hd.key = mk := by
  induction lists generalizing acc with
  | nil => simp only [List.foldl_nil] at h; exact Or.inl h
  | cons l ls ih =>
    rw [List.foldl_cons] at h
    rcases ih h with hstep | ⟨l2, hl2, hd, hhd, hkey⟩
    · cases hl : l.head? with
      | none =>
        rw [minStep, hl] at hstep
        exact Or.inl hstep
      | some hd =>
        cases hacc : acc with
        | none =>
          rw [minStep, hl, hacc] at hstep
          injection hstep with h2
          exact Or.inr ⟨l, by simp, hd, by simp [hl], h2⟩
        | some m =>
          rw [minStep, hl, hacc] at hstep
          dsimp only at hstep
          by_cases hlt : hd.key < m
          · rw [if_pos hlt] at hstep
            injection hstep with h2
            exact Or.inr ⟨l, by simp, hd, by simp [hl], h2⟩
          · rw [if_neg hlt] at hstep
            exact Or.inl (hacc ▸ hstep)
    · exact Or.inr ⟨l2, by simp [hl2], hd, hhd, hkey⟩

theorem minHeadKey_le {lists : List (List KVMemoryRepr)} {mk : Nat}
    (h : minHeadKey lists = some mk) :
    ∀ l ∈ lists, ∀ hd ∈ l.head?, mk ≤ hd.key :=
  (minFold_le h).1

theorem minHeadKey_attained {lists : List (List KVMemoryRepr)} {mk : Nat}
    (h : minHeadKey lists = some mk) :
    ∃ l ∈ lists, ∃ hd ∈ l.head?, hd.key = mk := by
  rcases minFold_attained h with hcon | hres
  · exact absurd hcon (by simp)
  · exact hres

theorem minFold_some_ne_none (ls : List (List KVMemoryRepr)) :
    ∀ m : Nat, ls.foldl minStep (some m) ≠ Option.none := by
  induction ls with
  | nil => intro m; simp
  | cons x xs ih =>
    intro m
    rw [List.foldl_cons]
    cases hx : x.head? with
    | none => rw [minStep, hx]; exact ih m
    | some hd =>
      rw [minStep, hx]
      dsimp only
      by_cases hlt : hd.key < m
      · rw [if_pos hlt]; exact ih hd.key
      · rw [if_neg hlt]; exact ih m

theorem minHeadKey_none {lists : List (List KVMemoryRepr)}
    (h : minHeadKey lists = Option.none) : ∀ l ∈ lists, l = [] := by
  unfold minHeadKey at h
  induction lists with
  | nil => simp
  | cons l ls ih =>
    rw [List.foldl_cons] at h
    cases hl : l.head? with
    | some hd =>
      rw [minStep, hl] at h
      exact absurd h (minFold_some_ne_none ls hd.key)
    | none =>
      have hstep : minStep Option.none l = Option.none := by
        rw [minStep, hl]
      intro l2 hl2
      rcases List.mem_cons.mp hl2 with rfl | hl2'
      · exact List.head?_eq_none_iff.mp hl
      · exact ih (by rw [hstep] at h; exact h) l2 hl2'

theorem popMin_sumLen_le (lists : List (List KVMemoryRepr)) (mk : Nat) :
    sumLen (popMin lists mk).2 ≤ sumLen lists := by
  induction lists with
  | nil => simp [popMin]
  | cons l rest ih =>
    cases l with
    | nil => simpa [popMin, sumLen] using ih
    | cons hd tl =>
      by_cases h : hd.key = mk
      · simp only [popMin, if_pos h, sumLen, List.map_cons, List.sum_cons]
        have := ih
        simp only [sumLen] at this
        simp only [List.length_cons]
        omega
      · simp only [popMin, if_neg h, sumLen, List.map_cons, List.sum_cons]
        have := ih
        simp only [sumLen] at this
        omega

theorem popMin_sumLen_lt {lists : List (List KVMemoryRepr)} {mk : Nat}
    (h : ∃ l ∈ lists, ∃ hd ∈ l.head?, hd.key = mk) :
    sumLen (popMin lists mk).2 < sumLen lists := by
  induction lists with
  | nil => simp at h
  | cons l rest ih =>
    obtain ⟨l0, hl0, hd0, hhd0, hkey0⟩ := h
    rcases List.mem_cons.mp hl0 with rfl | hl0'
    · cases l0 with
      | nil => simp at hhd0
      | cons hd tl =>
        have : hd0 = hd := by
          rw [Option.mem_def] at hhd0
          simp only [List.head?_cons, Option.some.injEq] at hhd0
          exact hhd0.symm
        subst this
        simp only [popMin, if_pos hkey0, sumLen, List.map_cons, List.sum_cons,
          List.length_cons]
        have := popMin_sumLen_le rest mk
        simp only [sumLen] at this
        omega
    · cases l with
      | nil =>
        have := ih ⟨l0, hl0', hd0, hhd0, hkey0⟩
        simp only [popMin, sumLen, List.map_cons, List.sum_cons] at *
        omega
      | cons hd tl =>
        have := ih ⟨l0, hl0', hd0, hhd0, hkey0⟩
        by_cases hk : hd.key = mk
        · simp only [popMin, if_pos hk, sumLen, List.map_cons, List.sum_cons,
            List.length_cons] at *
          omega
        · simp only [popMin, if_neg hk, sumLen, List.map_cons,
            List.sum_cons] at *
          omega

theorem popMin_sorted {lists : List (List KVMemoryRepr)} {mk : Nat}
    (hs : ∀ l ∈ lists, StrictSorted l) :
    ∀ l' ∈ (popMin lists mk).2, StrictSorted l' := by
  induction lists with
  | nil => simp [popMin]
  | cons l rest ih =>
    have hrest : ∀ l2 ∈ rest, StrictSorted l2 :=
      fun l2 h2 => hs l2 (by simp [h2])
    cases l with
    | nil =>
      intro l' hl'
      simp only [popMin] at hl'
      rcases List.mem_cons.mp hl' with rfl | h2
      · exact List.Pairwise.nil
      · exact ih hrest l' h2
    | cons hd tl =>
      intro l' hl'
      by_cases hk : hd.key = mk
      · simp only [popMin, if_pos hk] at hl'
        rcases List.mem_cons.mp hl' with rfl | h2
        · exact (hs (hd :: l') (by simp)).of_cons
        · exact ih hrest l' h2
      · simp only [popMin, if_neg hk] at hl'
        rcases List.mem_cons.mp hl' with rfl | h2
        · exact hs (hd :: tl) (by simp)
        · exact ih hrest l' h2

theorem popMin_subset {lists : List (List KVMemoryRepr)} {mk : Nat} :
    ∀ l' ∈ (popMin lists mk).2, ∀ e ∈ l', ∃ l ∈ lists, e ∈ l := by
  induction lists with
  | nil => simp [popMin]
  | cons l rest ih =>
    cases l with
    | nil =>
      intro l' hl' e he
      simp only [popMin] at hl'
      rcases List.mem_cons.mp hl' with rfl | h2
      · simp at he
      · obtain ⟨l0, hl0, he0⟩ := ih l' h2 e he
        exact ⟨l0, by simp [hl0], he0⟩
    | cons hd tl =>
      intro l' hl' e he
      by_cases hk : hd.key = mk
      · simp only [popMin, if_pos hk] at hl'
        rcases List.mem_cons.mp hl' with rfl | h2
        · exact ⟨hd :: l', by simp, by simp [he]⟩
        · obtain ⟨l0, hl0, he0⟩ := ih l' h2 e he
          exact ⟨l0, by simp [hl0], he0⟩
      · simp only [popMin, if_neg hk] at hl'
        rcases List.mem_cons.mp hl' with rfl | h2
        · exact ⟨hd :: tl, by simp, he⟩
        · obtain ⟨l0, hl0, he0⟩ := ih l' h2 e he
          exact ⟨l0, by simp [hl0], he0⟩

theorem popMin_gt {lists : List (List KVMemoryRepr)} {mk : Nat}
    (hs : ∀ l ∈ lists, StrictSorted l)
    (hmin : ∀ l ∈ lists, ∀ hd ∈ l.head?, mk ≤ hd.key) :
    ∀ l' ∈ (popMin lists mk).2, ∀ e ∈ l', mk < e.key := by
  induction lists with
  | nil => simp [popMin]
  | cons l rest ih =>
    have hrest := ih (fun l2 h2 => hs l2 (by simp [h2]))
      (fun l2 h2 hd hhd => hmin l2 (by simp [h2]) hd hhd)
    cases l with
    | nil =>
      intro l' hl' e he
      simp only [popMin] at hl'
      rcases List.mem_cons.mp hl' with rfl | h2
      · simp at he
      · exact hrest l' h2 e he
    | cons hd tl =>
      have hhd : mk ≤ hd.key := hmin (hd :: tl) (by simp) hd (by simp)
      have htl : ∀ e ∈ tl, hd.key < e.key :=
        (List.pairwise_cons.mp (hs (hd :: tl) (by simp))).1
      intro l' hl' e he
      by_cases hk : hd.key = mk
      · simp only [popMin, if_pos hk] at hl'
        rcases List.mem_cons.mp hl' with rfl | h2
        · have := htl e he
          omega
        · exact hrest l' h2 e he
      · simp only [popMin, if_neg hk] at hl'
        rcases List.mem_cons.mp hl' with rfl | h2
        · rcases List.mem_cons.mp he with rfl | he2
          · omega
          · have := htl e he2
            omega
        · exact hrest l' h2 e he

theorem popMin_fst_eq {lists : List (List KVMemoryRepr)} {mk : Nat}
    (hs : ∀ l ∈ lists, StrictSorted l)
    (hmin : ∀ l ∈ lists, ∀ hd ∈ l.head?, mk ≤ hd.key) :
    (popMin lists mk).1 = listsLookup lists mk := by
  induction lists with
  | nil => simp [popMin, listsLookup]
  | cons l rest ih =>
    have ihr := ih (fun l2 h2 => hs l2 (by simp [h2]))
      (fun l2 h2 hd hhd => hmin l2 (by simp [h2]) hd hhd)
    cases l with
    | nil =>
      simp only [popMin, listsLookup, List.findSome?_cons, List.find?_nil]
      simpa [listsLookup] using ihr
    | cons hd tl =>
      by_cases hk : hd.key = mk
      · have hfind : (hd :: tl).find? (fun e => e.key = mk) = some hd := by
          rw [List.find?_cons]
          simp [hk]
        simp only [popMin, if_pos hk, listsLookup, List.findSome?_cons, hfind]
      · have hhd : mk ≤ hd.key := hmin (hd :: tl) (by simp) hd (by simp)
        have htl : ∀ e ∈ tl, hd.key < e.key :=
          (List.pairwise_cons.mp (hs (hd :: tl) (by simp))).1
        have hfind : (hd :: tl).find? (fun e => e.key = mk) = Option.none := by
          rw [List.find?_eq_none]
          intro x hx
          simp only [decide_eq_true_eq]
          rcases List.mem_cons.mp hx with rfl | hx2
          · exact hk
          · have := htl x hx2
            omega
        simp only [popMin, if_neg hk, listsLookup, List.findSome?_cons, hfind]
        simpa [listsLookup] using ihr

theorem popMin_lookup_ne {lists : List (List KVMemoryRepr)} {mk k : Nat}
    (hk : k ≠ mk) :
    listsLookup (popMin lists mk).2 k = listsLookup lists k := by
  induction lists with
  | nil => simp [popMin]
  | cons l rest ih =>
    cases l with
    | nil =>
      simp only [popMin, listsLookup, List.findSome?_cons, List.find?_nil]
      simpa [listsLookup] using ih
    | cons hd tl =>
      by_cases hkk : hd.key = mk
      · have hne : ¬ hd.key = k := by omega
        have hfind1 : (hd :: tl).find? (fun e => e.key = k)
            = tl.find? (fun e => e.key = k) := by
          rw [List.find?_cons]
          simp [hne]
        simp only [popMin, if_pos hkk, listsLookup, List.findSome?_cons,
          hfind1]
        cases hfind : tl.find? (fun e => e.key = k) with
        | some r => rfl
        | none => simpa [listsLookup] using ih
      · simp only [popMin, if_neg hkk, listsLookup, List.findSome?_cons]
        cases hfind : (hd :: tl).find? (fun e => e.key = k) with
        | some r => rfl
        | none => simpa [listsLookup] using ih

theorem listsLookup_of_all_nil {lists : List (List KVMemoryRepr)} {k : Nat}
    (h : ∀ l ∈ lists, l = []) : listsLookup lists k = Option.none := by
  induction lists with
  | nil => simp [listsLookup]
  | cons l rest ih =>
    have hl : l = [] := h l (by simp)
    subst hl
    simp only [listsLookup, List.findSome?_cons, List.find?_nil]
    exact ih (fun l2 h2 => h l2 (by simp [h2]))

theorem listsLookup_mem {lists : List (List KVMemoryRepr)} {k : Nat}
    {r : KVMemoryRepr} (h : listsLookup lists k = some r) :
    (∃ l ∈ lists, r ∈ l) ∧ r.key = k := by
  induction lists with
  | nil => simp [listsLookup] at h
  | cons l rest ih =>
    simp only [listsLookup, List.findSome?_cons] at h
    cases hfind : l.find? (fun e => e.key = k) with
    | some r2 =>
      rw [hfind] at h
      injection h with h2
      subst h2
      refine ⟨⟨l, by simp, List.mem_of_find?_eq_some hfind⟩, ?_⟩
      have := List.find?_some hfind
      simpa using this
    | none =>
      rw [hfind] at h
      obtain ⟨⟨l0, hl0, hr0⟩, hkey⟩ := ih (by simpa [listsLookup] using h)
      exact ⟨⟨l0, by simp [hl0], hr0⟩, hkey⟩

/-- Full specification of the k-way merge loop on sorted inputs: every output
record comes from some input list, the output is strictly key-sorted, and
per-key lookup in the output equals the newest-first lookup across the
inputs, filtered by the tombstone flag. -/
theorem mergeLoop_spec (save : Bool) :
    ∀ fuel lists, sumLen lists < fuel → (∀ l ∈ lists, StrictSorted l) →
      (∀ r ∈ mergeLoop save fuel lists, ∃ l ∈ lists, r ∈ l)
      ∧ StrictSorted (mergeLoop save fuel lists)
      ∧ ∀ k, (mergeLoop save fuel lists).find? (fun e => e.key = k)
          = match listsLookup lists k with
            | some r =>
                if save || r.value.isSome then some r else Option.none
            | Option.none => Option.none := by
  intro fuel
  induction fuel with
  | zero => intro lists h _; omega
  | succ f ih =>
    intro lists hfuel hsorted
    cases hmk : minHeadKey lists with
    | none =>
      have hnil := minHeadKey_none hmk
      rw [mergeLoop, hmk]
      refine ⟨by simp, List.Pairwise.nil, ?_⟩
      intro k
      rw [listsLookup_of_all_nil hnil]
      simp
    | some mk =>
      have hmin := minHeadKey_le hmk
      have hatt := minHeadKey_attained hmk
      have hlt := popMin_sumLen_lt hatt
      have hfuel' : sumLen (popMin lists mk).2 < f := by omega
      have hsorted' := @popMin_sorted lists mk hsorted
      obtain ⟨ihm, ihs, ihl⟩ := ih (popMin lists mk).2 hfuel' hsorted'
      have hfst : (popMin lists mk).1 = listsLookup lists mk :=
        popMin_fst_eq hsorted hmin
      cases hlk : listsLookup lists mk with
      | none =>
        exfalso
        obtain ⟨l0, hl0, hd0, hhd0, hkey0⟩ := hatt
        have hall := List.findSome?_eq_none.mp hlk l0 hl0
        cases l0 with
        | nil => simp at hhd0
        | cons hd tl =>
          have : hd0 = hd := by
            rw [Option.mem_def] at hhd0
            simp only [List.head?_cons, Option.some.injEq] at hhd0
            exact hhd0.symm
          subst this
          rw [List.find?_cons] at hall
          simp [hkey0] at hall
      | some r0 =>
        have hr0key : r0.key = mk := (listsLookup_mem hlk).2
        have hr0mem : ∃ l ∈ lists, r0 ∈ l := (listsLookup_mem hlk).1
        have hrest_gt : ∀ x ∈ mergeLoop save f (popMin lists mk).2,
            mk < x.key := by
          intro x hx
          obtain ⟨l', hl', hxl'⟩ := ihm x hx
          exact popMin_gt hsorted hmin l' hl' x hxl'
        have hrest_mem : ∀ r ∈ mergeLoop save f (popMin lists mk).2,
            ∃ l ∈ lists, r ∈ l := by
          intro r hr
          obtain ⟨l', hl', hrl'⟩ := ihm r hr
          exact popMin_subset l' hl' r hrl'
        have hrest_none : (mergeLoop save f (popMin lists mk).2).find?
            (fun e => e.key = mk) = Option.none := by
          rw [List.find?_eq_none]
          intro x hx
          have := hrest_gt x hx
          simp only [decide_eq_true_eq]
          omega
        have hlookup_ne : ∀ k, k ≠ mk →
            (mergeLoop save f (popMin lists mk).2).find? (fun e => e.key = k)
              = match listsLookup lists k with
                | some r =>
                    if save || r.value.isSome then some r else Option.none
                | Option.none => Option.none := by
          intro k hk
          rw [ihl k, popMin_lookup_ne hk]
        rw [mergeLoop, hmk]
        dsimp only
        rw [hfst, hlk]
        dsimp only
        by_cases hcond : (save || r0.value.isSome) = true
        · rw [hcond, if_pos rfl]
          refine ⟨?_, ?_, ?_⟩
          · intro r hr
            rcases List.mem_cons.mp hr with rfl | hr2
            · exact hr0mem
            · exact hrest_mem r hr2
          · refine List.pairwise_cons.mpr ⟨?_, ihs⟩
            intro x hx
            have := hrest_gt x hx
            omega
          · intro k
            by_cases hk : k = mk
            · subst hk
              rw [List.find?_cons]
              have hd1 : decide (r0.key = k) = true := by simp [hr0key]
              rw [hd1]
              dsimp only
              rw [hlk]
              dsimp only
              rw [hcond, if_pos rfl]
            · rw [List.find?_cons]
              have hd1 : decide (r0.key = k) = false := by
                simp only [decide_eq_false_iff_not]
                omega
              rw [hd1]
              dsimp only
              exact hlookup_ne k hk
        · rw [Bool.not_eq_true] at hcond
          rw [hcond, if_neg (by simp)]
          refine ⟨hrest_mem, ihs, ?_⟩
          intro k
          by_cases hk : k = mk
          · subst hk
            rw [hrest_none, hlk]
            dsimp only
            rw [hcond]
            simp
          · exact hlookup_ne k hk

theorem mergeLoop_no_tombstones :
    ∀ fuel lists, ∀ r ∈ mergeLoop false fuel lists, r.value.isSome = true := by
  intro fuel
  induction fuel with
  | zero => intro lists r hr; simp [mergeLoop] at hr
  | succ f ih =>
    intro lists r hr
    rw [mergeLoop] at hr
    cases hmk : minHeadKey lists with
    | none => rw [hmk] at hr; simp at hr
    | some mk =>
      rw [hmk] at hr
      dsimp only at hr
      cases hfst : (popMin lists mk).1 with
      | none =>
        rw [hfst] at hr
        dsimp only at hr
        exact ih _ r hr
      | some kv =>
        rw [hfst] at hr
        dsimp only at hr
        by_cases hcond : (false || kv.value.isSome) = true
        · rw [hcond, if_pos rfl] at hr
          rcases List.mem_cons.mp hr with rfl | hr2
          · simpa using hcond
          · exact ih _ r hr2
        · rw [Bool.not_eq_true] at hcond
          rw [hcond, if_neg (by simp)] at hr
          exact ih _ r hr

theorem popMin_fst_mem {lists : List (List KVMemoryRepr)} {mk : Nat}
    {r : KVMemoryRepr} (h : (popMin lists mk).1 = some r) :
    ∃ l ∈ lists, r ∈ l := by
  induction lists with
  | nil => simp [popMin] at h
  | cons l rest ih =>
    cases l with
    | nil =>
      simp only [popMin] at h
      obtain ⟨l0, hl0, hr0⟩ := ih h
      exact ⟨l0, by simp [hl0], hr0⟩
    | cons hd tl =>
      by_cases hk : hd.key = mk
      · simp only [popMin, if_pos hk] at h
        injection h with h2
        exact ⟨hd :: tl, by simp, by rw [← h2]; simp⟩
      · simp only [popMin, if_neg hk] at h
        obtain ⟨l0, hl0, hr0⟩ := ih h
        exact ⟨l0, by simp [hl0], hr0⟩

theorem mergeLoop_mem (save : Bool) :
    ∀ fuel lists, ∀ r ∈ mergeLoop save fuel lists, ∃ l ∈ lists, r ∈ l := by
  intro fuel
  induction fuel with
  | zero => intro lists r hr; simp [mergeLoop] at hr
  | succ f ih =>
    intro lists r hr
    rw [mergeLoop] at hr
    cases hmk : minHeadKey lists with
    | none => rw [hmk] at hr; simp at hr
    | some mk =>
      rw [hmk] at hr
      dsimp only at hr
      have hsub : ∀ r2 ∈ mergeLoop save f (popMin lists mk).2,
          ∃ l ∈ lists, r2 ∈ l := by
        intro r2 hr2
        obtain ⟨l', hl', hrl'⟩ := ih _ r2 hr2
        exact popMin_subset l' hl' r2 hrl'
      cases hfst : (popMin lists mk).1 with
      | none =>
        rw [hfst] at hr
        dsimp only at hr
        exact hsub r hr
      | some kv =>
        rw [hfst] at hr
        dsimp only at hr
        by_cases hcond : (save || kv.value.isSome) = true
        · rw [hcond, if_pos rfl] at hr
          rcases List.mem_cons.mp hr with rfl | hr2
          · exact popMin_fst_mem hfst
          · exact hsub r hr2
        · rw [Bool.not_eq_true] at hcond
          rw [hcond, if_neg (by simp)] at hr
          exact hsub r hr

theorem merge_contents_spec (save : Bool) (lists : List (List KVMemoryRepr))
    (hs : ∀ l ∈ lists, StrictSorted l) :
    (∀ r ∈ merge_sstable_contents lists save, ∃ l ∈ lists, r ∈ l)
      ∧ StrictSorted (merge_sstable_contents lists save)
      ∧ ∀ k, (merge_sstable_contents lists save).find? (fun e => e.key = k)
          = match listsLookup lists k with
            | some r =>
                if save || r.value.isSome then some r else Option.none
            | Option.none => Option.none :=
  mergeLoop_spec save (sumLen lists + 1) lists (by omega) hs

theorem mergeLoop_singleton (save : Bool) :
    ∀ fuel (l : List KVMemoryRepr), l.length < fuel →
      mergeLoop save fuel [l]
        = l.filter (fun r => save || r.value.isSome) := by
  intro fuel
  induction fuel with
  | zero => intro l h; omega
  | succ f ih =>
    intro l hlen
    cases l with
    | nil => simp [mergeLoop, minHeadKey, minStep, List.foldl]
    | cons hd tl =>
      have hmk : minHeadKey [hd :: tl] = some hd.key := rfl
      have hpop : popMin [hd :: tl] hd.key = (some hd, [tl]) := by
        simp [popMin]
      rw [mergeLoop, hmk]
      dsimp only
      rw [hpop]
      dsimp only
      rw [List.filter_cons]
      rw [ih tl (by simpa using hlen)]

theorem merge_contents_singleton (save : Bool) (l : List KVMemoryRepr) :
    merge_sstable_contents [l] save
      = l.filter (fun r => save || r.value.isSome) := by
  unfold merge_sstable_contents
  exact mergeLoop_singleton save _ l (by simp [sumLen])

/-- Read and scan the file of every table of a merge group (the
`read_file` + `deserialize_entries_from_bytes` loop of `merge_sstables`). -/
def scanTables : List SSTable → Except Error (List (List KVMemoryRepr))
  | [] => .ok []
  | t :: rest =>
      match deserialize_entries_from_bytes t.data with
      | .error er => .error er
      | .ok entries =>
          match scanTables rest with
          | .error er => .error er
          | .ok contents => .ok (entries :: contents)

/-- `merge_sstables` from `compactor.rs`: scan the group's files (newest
first), k-way merge, build index + bloom + run file; the fresh random id is
a parameter. -/
def merge_sstables (id : Nat) (tables : List SSTable)
    (save_tombstones : Bool) : Except Error SSTable :=
  match scanTables tables with
  | .error er => .error er
  | .ok contents =>
      sstableOfEntries id (merge_sstable_contents contents save_tombstones)

/-- Every record the scanner returns has `valid == true` (invalid records
are skipped silently). -/
theorem scanLoop_valid : ∀ fuel buffer l,
    scanLoop fuel buffer = .ok l → ∀ r ∈ l, r.valid = true := by
  intro fuel
  induction fuel with
  | zero =>
    intro buffer l h r hr
    rw [scanLoop] at h
    injection h with h2
    subst h2
    simp at hr
  | succ f ih =>
    intro buffer l h r hr
    rw [scanLoop] at h
    split at h
    · injection h with h2; subst h2; simp at hr
    · split at h
      · next entry unused heq =>
        split at h
        · next rest hrest =>
          injection h with h2
          subst h2
          by_cases hv : entry.valid = true
          · rw [if_pos hv] at hr
            rcases List.mem_cons.mp hr with rfl | hr2
            · exact hv
            · exact ih _ _ hrest r hr2
          · rw [if_neg hv] at hr
            exact ih _ _ hrest r hr
        · exact absurd h (by simp)
      · split at h
        · injection h with h2; subst h2; simp at hr
        · exact absurd h (by simp)

theorem scan_valid {buffer : List Nat} {l : List KVMemoryRepr}
    (h : deserialize_entries_from_bytes buffer = .ok l) :
    ∀ r ∈ l, r.valid = true :=
  scanLoop_valid _ _ _ h

/-- `get_bucket` from `compactor.rs`. -/
def get_bucket (size : Nat) : Nat :=
  if size = 0 then 0
  else if size / 1000000 < 10 then 0
  else if size / 1000000 < 100 then 1
  else if size / 1000000 < 1000 then 2
  else if size / 1000000 < 10000 then 3
  else 4

def MIN_TABLES_IN_MERGE : Nat := 4

def MAX_TABLES_IN_MERGE : Nat := 30

/-- Inner loop of `find_sstables_to_merge`: scan backwards from
`group_start` while the previous table is in the same bucket and the group
is under `MAX_TABLES_IN_MERGE`. -/
def extendGroup (tables : List SSTable) (current_bucket group_end : Nat) :
    Nat → Nat
  | 0 => 0
  | gs + 1 =>
      if group_end - (gs + 1) < MAX_TABLES_IN_MERGE
          ∧ get_bucket ((tables.getD gs default).file_size) = current_bucket
      then extendGroup tables current_bucket group_end gs
      else gs + 1

/-- Start index of the group whose (exclusive) end is `i`. -/
def groupStartAt (tables : List SSTable) (i : Nat) : Nat :=
  extendGroup tables (get_bucket ((tables.getD (i - 1) default).file_size))
    i (i - 1)

/-- Outer loop of `find_sstables_to_merge`, walking `i` from the oldest end
of the list toward index 0; `fuel` makes the recursion structural (the
group start is strictly below `i`, see `extendGroup_le`). -/
def findGroupsAux (tables : List SSTable) : Nat → Nat → List (Nat × Nat)
  | 0, _ => []
  | fuel + 1, i =>
      if i = 0 then []
      else if MIN_TABLES_IN_MERGE ≤ i - groupStartAt tables i then
        (groupStartAt tables i, i)
          :: findGroupsAux tables fuel (groupStartAt tables i)
      else findGroupsAux tables fuel (groupStartAt tables i)

/-- `find_sstables_to_merge` from `compactor.rs`: groups of at least
`MIN_TABLES_IN_MERGE` consecutive same-bucket tables, scanning from the
oldest end, capped at `MAX_TABLES_IN_MERGE`. -/
def find_sstables_to_merge (tables : List SSTable) : List (Nat × Nat) :=
  findGroupsAux tables (tables.length + 1) tables.length

/-- The merge jobs of one `handle_compaction_check` pass: each selected
range together with its `save_tombstones` flag
(`*end != current_state.len()`). -/
def merge_jobs (tables : List SSTable) : List ((Nat × Nat) × Bool) :=
  (find_sstables_to_merge tables).map
    (fun se => (se, decide (se.2 ≠ tables.length)))

theorem sstableOfEntries_ok (id : Nat) (l : List KVMemoryRepr) :
    sstableOfEntries id l
      = .ok ⟨id,
          specIndexFrom
            (l.length / max (FILE_SIZE_BYTES / TABLE_TO_INDEX_RATIO) 1) 0 0 l,
          l.flatMap serBytes, (l.flatMap serBytes).length,
          l.map KVMemoryRepr.key⟩ := by
  unfold sstableOfEntries entries_to_index_and_data
  rw [entriesLoop_eq]

theorem scanTables_valid : ∀ (tbls : List SSTable)
    (contents : List (List KVMemoryRepr)),
    scanTables tbls = .ok contents →
    ∀ l ∈ contents, ∀ e ∈ l, e.valid = true := by
  intro tbls
  induction tbls with
  | nil =>
    intro contents h l hl
    rw [scanTables] at h
    injection h with h2
    subst h2
    simp at hl
  | cons t rest ih =>
    intro contents h l hl
    rw [scanTables] at h
    split at h
    · exact absurd h (by simp)
    · next entries hscan =>
      split at h
      · exact absurd h (by simp)
      · next contents2 hrest =>
        injection h with h2
        subst h2
        rcases List.mem_cons.mp hl with rfl | hl2
        · exact scan_valid hscan
        · exact ih contents2 hrest l hl2

/-- C5: every merge job of a compaction pass carries
`save_tombstones = (group_end != len(Λ))`; a merge with
`save_tombstones = false` (a group reaching the tail of Λ) produces a run
with no absent-value record; and a merge with `save_tombstones = true`
keeps the newest record of every key, tombstones included. -/
theorem C5_tombstone_rule :
    (∀ tables : List SSTable, ∀ p ∈ merge_jobs tables,
        p.2 = decide (p.1.2 ≠ tables.length))
      ∧ (∀ (id : Nat) (tbls : List SSTable)
          (contents : List (List KVMemoryRepr)) (T' : SSTable),
          scanTables tbls = .ok contents →
          (∀ l ∈ contents, ∀ e ∈ l, e.wf) →
          merge_sstables id tbls false = .ok T' →
          deserialize_entries_from_bytes T'.data
              = .ok (merge_sstable_contents contents false)
            ∧ ∀ r ∈ merge_sstable_contents contents false,
                r.value.isSome = true)
      ∧ ∀ lists : List (List KVMemoryRepr),
          (∀ l ∈ lists, StrictSorted l) →
          ∀ k r, listsLookup lists k = some r →
            r ∈ merge_sstable_contents lists true := by
  refine ⟨?_, ?_, ?_⟩
  · intro tables p hp
    unfold merge_jobs at hp
    obtain ⟨se, -, rfl⟩ := List.mem_map.mp hp
    rfl
  · intro id tbls contents T' hscanT hwf hmerge
    have hvalid := scanTables_valid tbls contents hscanT
    rw [merge_sstables, hscanT] at hmerge
    dsimp only at hmerge
    rw [sstableOfEntries_ok] at hmerge
    injection hmerge with h2
    subst h2
    dsimp only
    have hmwf : ∀ e ∈ merge_sstable_contents contents false,
        e.wf ∧ e.valid = true := by
      intro e he
      obtain ⟨l, hl, hel⟩ := mergeLoop_mem false _ contents e he
      exact ⟨hwf l hl e hel, hvalid l hl e hel⟩
    exact ⟨scan_flatMap hmwf, mergeLoop_no_tombstones _ contents⟩
  · intro lists hs k r hlk
    obtain ⟨-, -, hfind⟩ := merge_contents_spec true lists hs
    have := hfind k
    rw [hlk] at this
    dsimp only at this
    rw [if_pos (by simp)] at this
    exact List.mem_of_find?_eq_some this

/-- Witness for C5: four equal-sized runs form one tail group whose flag is
false; merging a tombstone-bearing run with flag false drops the tombstone;
with flag true the newest (tombstone) record survives. -/
theorem C5_tombstone_rule_witness :
    (((0, 4), false) : (Nat × Nat) × Bool).2
        = decide ((((0, 4), false) : (Nat × Nat) × Bool).1.2
            ≠ ([(⟨1, [], [], 13, [1]⟩ : SSTable), ⟨2, [], [], 13, [2]⟩,
                ⟨3, [], [], 13, [3]⟩, ⟨4, [], [], 13, [4]⟩]).length)
      ∧ (deserialize_entries_from_bytes
            ((merge_sstables 11
              [(sstableOfEntries 3 [KVMemoryRepr.new 5 Option.none]).toOption.getD
                default] false).toOption.getD default).data
            = .ok (merge_sstable_contents [[KVMemoryRepr.new 5 Option.none]]
                false)
          ∧ ∀ r ∈ merge_sstable_contents [[KVMemoryRepr.new 5 Option.none]]
              false, r.value.isSome = true)
      ∧ KVMemoryRepr.new 5 Option.none
          ∈ merge_sstable_contents [[KVMemoryRepr.new 5 Option.none]] true := by
  refine ⟨?_, ?_, ?_⟩
  · exact C5_tombstone_rule.1
      [⟨1, [], [], 13, [1]⟩, ⟨2, [], [], 13, [2]⟩,
        ⟨3, [], [], 13, [3]⟩, ⟨4, [], [], 13, [4]⟩]
      ((0, 4), false) (by decide)
  · exact C5_tombstone_rule.2.1 11
      [(sstableOfEntries 3 [KVMemoryRepr.new 5 Option.none]).toOption.getD
        default]
      [[KVMemoryRepr.new 5 Option.none]] _ (by rfl) (by decide) (by rfl)
  · exact C5_tombstone_rule.2.2 [[KVMemoryRepr.new 5 Option.none]]
      (by
        intro l hl
        simp only [List.mem_singleton] at hl
        subst hl
        exact List.pairwise_singleton _ _)
      5 (KVMemoryRepr.new 5 Option.none) (by rfl)

/-- C9 counterexample: `T` holds the single tombstone record `(5, absent)`;
merging the single-element group `[T]` with `save_tombstones = false` (the
flag the compactor uses for a group reaching the tail of Λ) yields a run
with no records at all, so the (key, value) pair sets differ. -/
theorem C9_counterexample :
    deserialize_entries_from_bytes
        ((sstableOfEntries 3 [KVMemoryRepr.new 5 Option.none]).toOption.getD
          default).data = .ok [KVMemoryRepr.new 5 Option.none]
      ∧ merge_sstables 4
          [(sstableOfEntries 3 [KVMemoryRepr.new 5 Option.none]).toOption.getD
            default] false
          = .ok ((merge_sstables 4
              [(sstableOfEntries 3
                [KVMemoryRepr.new 5 Option.none]).toOption.getD default]
              false).toOption.getD default)
      ∧ deserialize_entries_from_bytes
          ((merge_sstables 4
            [(sstableOfEntries 3
              [KVMemoryRepr.new 5 Option.none]).toOption.getD default]
            false).toOption.getD default).data = .ok ([] : List KVMemoryRepr)
      ∧ ([KVMemoryRepr.new 5 Option.none] : List KVMemoryRepr) ≠ [] :=
  ⟨by rfl, by rfl, by rfl, by decide⟩

/-- C9 amended: merging the single-element group `[T]` returns a run built
from exactly T's records when `save_tombstones` is true (equal (key, value)
pairs), and from T's records minus tombstones when `save_tombstones` is
false. -/
theorem C9_merge_singleton (T : SSTable) (id : Nat)
    (l : List KVMemoryRepr)
    (hscan : deserialize_entries_from_bytes T.data = .ok l) :
    merge_sstables id [T] true = sstableOfEntries id l
      ∧ merge_sstables id [T] false
          = sstableOfEntries id (l.filter (fun r => r.value.isSome)) := by
  have hscanT : scanTables [T] = .ok [l] := by
    rw [scanTables, hscan, scanTables]
  constructor
  · rw [merge_sstables, hscanT]
    dsimp only
    rw [merge_contents_singleton]
    congr 1
    simp
  · rw [merge_sstables, hscanT]
    dsimp only
    rw [merge_contents_singleton]
    congr 1

/-- Witness for C9's amended statement on a tombstone-free run. -/
theorem C9_merge_singleton_witness :
    deserialize_entries_from_bytes
        ((sstableOfEntries 8 [KVMemoryRepr.new 1 (some 10)]).toOption.getD
          default).data = .ok [KVMemoryRepr.new 1 (some 10)]
      ∧ merge_sstables 9
          [(sstableOfEntries 8 [KVMemoryRepr.new 1 (some 10)]).toOption.getD
            default] true
          = sstableOfEntries 9 [KVMemoryRepr.new 1 (some 10)]
      ∧ merge_sstables 9
          [(sstableOfEntries 8 [KVMemoryRepr.new 1 (some 10)]).toOption.getD
            default] false
          = sstableOfEntries 9
              ([KVMemoryRepr.new 1 (some 10)].filter
                (fun r => r.value.isSome)) := by
  have h := C9_merge_singleton
    ((sstableOfEntries 8 [KVMemoryRepr.new 1 (some 10)]).toOption.getD
      default) 9 [KVMemoryRepr.new 1 (some 10)] (by rfl)
  exact ⟨by rfl, h.1, h.2⟩

theorem extendGroup_le (tables : List SSTable) (b ge : Nat) :
    ∀ gs, extendGroup tables b ge gs ≤ gs := by
  intro gs
  induction gs with
  | zero => simp [extendGroup]
  | succ g ih =>
    rw [extendGroup]
    split
    · omega
    · omega

theorem extendGroup_cap (tables : List SSTable) (b ge : Nat) :
    ∀ gs, ge - gs ≤ MAX_TABLES_IN_MERGE →
      ge - extendGroup tables b ge gs ≤ MAX_TABLES_IN_MERGE := by
  intro gs
  induction gs with
  | zero => simp [extendGroup]
  | succ g ih =>
    intro h
    rw [extendGroup]
    split
    · next hcond => exact ih (by omega)
    · exact h

theorem extendGroup_bucket (tables : List SSTable) (b ge : Nat) :
    ∀ gs, (∀ j, gs ≤ j → j < ge →
        get_bucket ((tables.getD j default).file_size) = b) →
      ∀ j, extendGroup tables b ge gs ≤ j → j < ge →
        get_bucket ((tables.getD j default).file_size) = b := by
  intro gs
  induction gs with
  | zero =>
    intro h j hj1 hj2
    exact h j (by omega) hj2
  | succ g ih =>
    intro h j hj1 hj2
    rw [extendGroup] at hj1
    split at hj1
    · next hcond =>
      refine ih ?_ j hj1 hj2
      intro j2 hj2l hj2r
      rcases Nat.eq_or_lt_of_le hj2l with rfl | hlt
      · exact hcond.2
      · exact h j2 (by omega) hj2r
    · exact h j hj1 hj2

theorem extendGroup_maximal (tables : List SSTable) (b ge : Nat) :
    ∀ gs, ge - gs ≤ MAX_TABLES_IN_MERGE →
      extendGroup tables b ge gs = 0
        ∨ ge - extendGroup tables b ge gs = MAX_TABLES_IN_MERGE
        ∨ get_bucket
            ((tables.getD (extendGroup tables b ge gs - 1) default).file_size)
            ≠ b := by
  intro gs
  induction gs with
  | zero => intro h; left; rfl
  | succ g ih =>
    intro h
    rw [extendGroup]
    split
    · next hcond => exact ih (by omega)
    · next hcond =>
      rw [Classical.not_and_iff_or_not_not] at hcond
      rcases hcond with h1 | h2
      · right; left
        omega
      · right; right
        simpa using h2

theorem findGroupsAux_spec (tables : List SSTable) :
    ∀ fuel i, i < fuel →
      (∀ se ∈ findGroupsAux tables fuel i,
        se.1 < se.2 ∧ se.2 ≤ i
          ∧ MIN_TABLES_IN_MERGE ≤ se.2 - se.1
          ∧ se.2 - se.1 ≤ MAX_TABLES_IN_MERGE
          ∧ (∀ j, se.1 ≤ j → j < se.2 →
              get_bucket ((tables.getD j default).file_size)
                = get_bucket ((tables.getD (se.2 - 1) default).file_size))
          ∧ (se.1 = 0 ∨ se.2 - se.1 = MAX_TABLES_IN_MERGE
              ∨ get_bucket ((tables.getD (se.1 - 1) default).file_size)
                ≠ get_bucket ((tables.getD (se.2 - 1) default).file_size)))
      ∧ (findGroupsAux tables fuel i).Pairwise (fun p q => q.2 ≤ p.1) := by
  intro fuel
  induction fuel with
  | zero => intro i h; omega
  | succ f ih =>
    intro i hfuel
    by_cases hi0 : i = 0
    · subst hi0
      rw [findGroupsAux, if_pos rfl]
      exact ⟨by simp, List.Pairwise.nil⟩
    · have hgs_le : groupStartAt tables i ≤ i - 1 :=
        extendGroup_le tables _ i (i - 1)
      have hgs_lt : groupStartAt tables i < i := by omega
      have hone : i - (i - 1) ≤ MAX_TABLES_IN_MERGE := by
        have : MAX_TABLES_IN_MERGE = 30 := rfl
        omega
      have hcap : i - groupStartAt tables i ≤ MAX_TABLES_IN_MERGE :=
        extendGroup_cap tables _ i (i - 1) hone
      have hbucket : ∀ j, groupStartAt tables i ≤ j → j < i →
          get_bucket ((tables.getD j default).file_size)
            = get_bucket ((tables.getD (i - 1) default).file_size) := by
        refine extendGroup_bucket tables _ i (i - 1) ?_
        intro j hj1 hj2
        have : j = i - 1 := by omega
        rw [this]
      have hmaximal := extendGroup_maximal tables
        (get_bucket ((tables.getD (i - 1) default).file_size)) i (i - 1) hone
      obtain ⟨ihP, ihpair⟩ := ih (groupStartAt tables i) (by omega)
      by_cases hemit : MIN_TABLES_IN_MERGE ≤ i - groupStartAt tables i
      · rw [findGroupsAux, if_neg hi0, if_pos hemit]
        constructor
        · intro se hse
          rcases List.mem_cons.mp hse with rfl | hse2
          · exact ⟨hgs_lt, le_rfl, hemit, hcap, hbucket, hmaximal⟩
          · obtain ⟨h1, h2, h3, h4, h5, h6⟩ := ihP se hse2
            exact ⟨h1, by omega, h3, h4, h5, h6⟩
        · refine List.pairwise_cons.mpr ⟨?_, ihpair⟩
          intro q hq
          exact (ihP q hq).2.1
      · rw [findGroupsAux, if_neg hi0, if_neg hemit]
        constructor
        · intro se hse
          obtain ⟨h1, h2, h3, h4, h5, h6⟩ := ihP se hse
          exact ⟨h1, by omega, h3, h4, h5, h6⟩
        · exact ihpair

theorem get_bucket_eq (sz : Nat) :
    get_bucket sz
      = (if sz < 10000000 then 0 else if sz < 100000000 then 1
         else if sz < 1000000000 then 2 else if sz < 10000000000 then 3
         else 4) := by
  unfold get_bucket
  split_ifs <;> omega

/-- C7: the compaction selection returns pairwise-disjoint half-open index
ranges, each with at least MIN=4 and at most MAX=30 runs, all in the same
size bucket; groups are formed walking from the oldest end as maximal
consecutive same-bucket stretches subject to the cap; and the bucket of a
size is given by the decimal thresholds 10 MB / 100 MB / 1 GB / 10 GB. -/
theorem C7_compaction_selection (tables : List SSTable) :
    (∀ se ∈ find_sstables_to_merge tables,
      se.1 < se.2 ∧ se.2 ≤ tables.length
        ∧ MIN_TABLES_IN_MERGE ≤ se.2 - se.1
        ∧ se.2 - se.1 ≤ MAX_TABLES_IN_MERGE
        ∧ (∀ j, se.1 ≤ j → j < se.2 →
            get_bucket ((tables.getD j default).file_size)
              = get_bucket ((tables.getD (se.2 - 1) default).file_size))
        ∧ (se.1 = 0 ∨ se.2 - se.1 = MAX_TABLES_IN_MERGE
            ∨ get_bucket ((tables.getD (se.1 - 1) default).file_size)
              ≠ get_bucket ((tables.getD (se.2 - 1) default).file_size)))
      ∧ (find_sstables_to_merge tables).Pairwise (fun p q => q.2 ≤ p.1)
      ∧ ∀ sz, get_bucket sz
          = (if sz < 10000000 then 0 else if sz < 100000000 then 1
             else if sz < 1000000000 then 2 else if sz < 10000000000 then 3
             else 4) := by
  obtain ⟨h1, h2⟩ :=
    findGroupsAux_spec tables (tables.length + 1) tables.length (by omega)
  exact ⟨h1, h2, get_bucket_eq⟩

/-- Witness for C7: five equal-sized (bucket-0) runs form the single group
`[0, 5)`. -/
theorem C7_compaction_selection_witness :
    find_sstables_to_merge
        [(⟨1, [], [], 100, []⟩ : SSTable), ⟨2, [], [], 100, []⟩,
          ⟨3, [], [], 100, []⟩, ⟨4, [], [], 100, []⟩, ⟨5, [], [], 100, []⟩]
        = [(0, 5)]
      ∧ (0 < 5 ∧ 5 ≤ 5 ∧ MIN_TABLES_IN_MERGE ≤ 5 - 0
          ∧ 5 - 0 ≤ MAX_TABLES_IN_MERGE)
      ∧ get_bucket 100 = 0 := by
  have h := C7_compaction_selection
    [(⟨1, [], [], 100, []⟩ : SSTable), ⟨2, [], [], 100, []⟩,
      ⟨3, [], [], 100, []⟩, ⟨4, [], [], 100, []⟩, ⟨5, [], [], 100, []⟩]
  have hmem := h.1 (0, 5) (by decide)
  exact ⟨by rfl, ⟨hmem.1, hmem.2.1, hmem.2.2.1, hmem.2.2.2.1⟩, by decide⟩

/-- Modelled from the spec: `functions::insertion_sort_by_key` is called by
`AppendLog::write_key` but its definition is not under `src/`; per the spec,
M is re-sorted by offset with a stable insertion sort after each append
(acceptable because M is almost sorted). -/
def insertSortedBy (f : α → Nat) (x : α) : List α → List α
  | [] => [x]
  | y :: t => if f y ≤ f x then y :: insertSortedBy f x t else x :: y :: t

def insertion_sort_by_key (f : α → Nat) (l : List α) : List α :=
  l.foldl (fun acc x => insertSortedBy f x acc) []

/-- `write_data_at_offset` (`functions.rs`): positional write of `data` at
`offset` into the file's bytes. -/
def write_data_at_offset (file data : List Nat) (offset : Nat) : List Nat :=
  file.take offset ++ data ++ file.drop (offset + data.length)

/-- `AppendLog::calculate_log_slot`: reserve `requested_size` bytes at the
current write offset if the file still has room. -/
def calculate_log_slot (requested_size current_write_offset : Nat) :
    Option Nat :=
  if requested_size > FILE_SIZE_BYTES - current_write_offset then Option.none
  else some current_write_offset

/-- `AppendLog::find_key`: scan the in-memory mirror newest-first (the
mirror is kept sorted by offset; iteration is end to start). -/
def find_key (in_memory : List (Nat × KVMemoryRepr)) (k : Nat) :
    FindResult :=
  match in_memory.reverse.find? (fun e => e.2.key = k) with
  | some e =>
      match e.2.value with
      | some v => .found v
      | Option.none => .tombstone
  | Option.none => .none

/-- The run-scanning loop of `KVStorage::read`: query each run newest first;
the first `Found`/`Tombstone` wins. -/
def find_in_sstables : List SSTable → Nat → Except Error (Option Nat)
  | [], _ => .ok Option.none
  | t :: rest, k =>
      match t.find k with
      | .error er => .error er
      | .ok (.found v) => .ok (some v)
      | .ok .tombstone => .ok Option.none
      | .ok .none => find_in_sstables rest k

/-- The sequential engine state: current log file bytes, write offset W,
in-memory mirror M, run list Λ (newest first), and the fresh-id counter
standing for `rand::random` (the source draws random u64 ids; the model
draws them from a counter, which keeps them distinct). -/
structure Engine where
  file : List Nat
  write_offset : Nat
  in_memory : List (Nat × KVMemoryRepr)
  sstables : List SSTable
  nextId : Nat
deriving DecidableEq

instance : Inhabited Engine := ⟨⟨[], 0, [], [], 0⟩⟩

/-- `KVStorage::read` (`lib.rs`): consult the mirror newest first, then the
runs in order. -/
def read (st : Engine) (k : Nat) : Except Error (Option Nat) :=
  match find_key st.in_memory k with
  | .found v => .ok (some v)
  | .tombstone => .ok Option.none
  | .none => find_in_sstables st.sstables k

/-- `AppendLog::write_key` in the sequential setting, with the outcome of
the two fallible file operations injected: `ioCreateOk` is the creation of
the fresh log file, `ioRunFileOk` the creation/write of the new run file
inside `log_file_to_sstable`.  The rotation-lock retry of the source always
fails again in a single-threaded run and is therefore folded into the first
failed acquisition; the source's outer loop re-acquires a slot after the
rotation, which then succeeds because a record is at most 21 < F bytes (the
unreachable fallback returns `TooBig` where the source would rotate
forever).  On the conversion-failure path the source has already replaced
the log state, so the old mirror is dropped. -/
def writeKeyFull (ioCreateOk ioRunFileOk : Bool) (k : Nat) (v : Option Nat)
    (st : Engine) : Engine × Option Error :=
  match serialize (KVMemoryRepr.new k v) with
  | .error er => (st, some er)
  | .ok serialized_data =>
      match calculate_log_slot serialized_data.length st.write_offset with
      | some slot =>
          ({ st with
              file := write_data_at_offset st.file serialized_data slot,
              write_offset := st.write_offset + serialized_data.length,
              in_memory := insertion_sort_by_key Prod.fst
                (st.in_memory ++ [(slot, KVMemoryRepr.new k v)]) },
            Option.none)
      | Option.none =>
          if ioCreateOk then
            match log_file_to_sstable st.nextId st.file with
            | .error er =>
                ({ st with
                    file := List.replicate FILE_SIZE_BYTES 0,
                    write_offset := 0,
                    in_memory := [] }, some er)
            | .ok t =>
                if ioRunFileOk then
                  match calculate_log_slot serialized_data.length 0 with
                  | some slot =>
                      ({ st with
                          file := write_data_at_offset
                            (List.replicate FILE_SIZE_BYTES 0)
                            serialized_data slot,
                          write_offset := serialized_data.length,
                          in_memory := insertion_sort_by_key Prod.fst
                            [(slot, KVMemoryRepr.new k v)],
                          sstables := t :: st.sstables,
                          nextId := st.nextId + 1 },
                        Option.none)
                  | Option.none =>
                      ({ st with
                          file := List.replicate FILE_SIZE_BYTES 0,
                          write_offset := 0,
                          in_memory := [],
                          sstables := t :: st.sstables,
                          nextId := st.nextId + 1 }, some .tooBig)
                else
                  ({ st with
                      file := List.replicate FILE_SIZE_BYTES 0,
                      write_offset := 0,
                      in_memory := [] }, some .io)
          else (st, some .io)

/-- `write_key` with both file operations succeeding. -/
def writeKey (k : Nat) (v : Option Nat) (st : Engine) :
    Engine × Option Error :=
  writeKeyFull true true k v st

/-- The consecutive-id window check of `handle_compaction_check`. -/
def idsMatchAt (old_ids : List Nat) (tbls : List SSTable) : Bool :=
  decide (old_ids.length ≤ tbls.length)
    && decide ((tbls.take old_ids.length).map SSTable.id = old_ids)

/-- Re-locate the merged group inside the current Λ by its id sequence
(first consecutive match, as in the source's scan from index 0). -/
def relocateIds (old_ids : List Nat) : List SSTable → Option Nat
  | [] => Option.none
  | t :: rest =>
      if idsMatchAt old_ids (t :: rest) then some 0
      else (relocateIds old_ids rest).map (· + 1)

/-- The `flat_map` replacement of `handle_compaction_check`: drop every
table whose id is in the replaced group, inserting the merged table at the
position of the group's first id. -/
def replaceByIds (old_ids : List Nat) (newT : SSTable)
    (tbls : List SSTable) : List SSTable :=
  tbls.filterMap (fun t =>
    if t.id ∈ old_ids then
      (if t.id = old_ids.headD 0 then some newT else Option.none)
    else some t)

/-- Run the merges of one compaction pass: each job gets a fresh id. -/
def runMerges (nextId : Nat) (cur : List SSTable) :
    List ((Nat × Nat) × Bool)
      → Except Error (List ((Nat × Nat) × SSTable))
  | [] => .ok []
  | ((s, e), save) :: rest =>
      match merge_sstables nextId ((cur.drop s).take (e - s)) save with
      | .error er => .error er
      | .ok t =>
          match runMerges (nextId + 1) cur rest with
          | .error er => .error er
          | .ok ts => .ok (((s, e), t) :: ts)

/-- The apply loop of `handle_compaction_check`: re-locate each group by
ids (the source panics when this fails, modelled by `none`) and splice the
merged table in. -/
def applyLoop (cur : List SSTable) :
    List ((Nat × Nat) × SSTable) → List SSTable → Option (List SSTable)
  | [], tbls => some tbls
  | ((s, e), newT) :: rest, tbls =>
      match relocateIds (((cur.drop s).take (e - s)).map SSTable.id) tbls with
      | Option.none => Option.none
      | some _ =>
          applyLoop cur rest
            (replaceByIds (((cur.drop s).take (e - s)).map SSTable.id)
              newT tbls)

/-- One `handle_compaction_check` pass, sequentially: plan, merge every
group, then apply.  A failed merge leaves Λ unchanged (the source logs the
error); a failed relocation is the source's panic, modelled by `none`. -/
def compactStep (st : Engine) : Option Engine :=
  match runMerges st.nextId st.sstables (merge_jobs st.sstables) with
  | .error _ => some st
  | .ok jobs =>
      match applyLoop st.sstables jobs st.sstables with
      | Option.none => Option.none
      | some tbls2 =>
          some { st with sstables := tbls2, nextId := st.nextId + jobs.length }

/-- Operations a single thread can issue: a write (value `none` is a
tombstone) or one compaction pass. -/
inductive Op where
  | write (k : Nat) (v : Option Nat)
  | compact
deriving DecidableEq

def execOp (st : Engine) : Op → Option Engine
  | .write k v =>
      match writeKey k v st with
      | (st', Option.none) => some st'
      | (_, some _) => Option.none
  | .compact => compactStep st

/-- A freshly opened engine: empty preallocated log, empty mirror, no
runs. -/
def initEngine : Engine :=
  ⟨List.replicate FILE_SIZE_BYTES 0, 0, [], [], 0⟩

def execOps (ops : List Op) : Option Engine :=
  ops.foldl (fun acc op => acc.bind (fun st => execOp st op)) (some initEngine)

/-- The argument of the last write to key `k` in the operation sequence. -/
def lastWriteOpt (ops : List Op) (k : Nat) : Option (Option Nat) :=
  (ops.filterMap (fun op =>
    match op with
    | .write k2 v => if k2 = k then some v else Option.none
    | .compact => Option.none)).getLast?

/-- The value a read of `k` must observe after `ops`: the last written
value, absent on tombstone or when `k` was never written. -/
def lastWrittenVal (ops : List Op) (k : Nat) : Option Nat :=
  (lastWriteOpt ops k).join

def OpWF : Op → Prop
  | .write k v => k < 2 ^ 64 ∧ v.getD 0 < 2 ^ 64
  | .compact => True

instance : DecidablePred OpWF := by
  intro op
  cases op <;> unfold OpWF <;> infer_instance

def readAfter (ops : List Op) (k : Nat) : Option (Except Error (Option Nat)) :=
  (execOps ops).map (fun st => read st k)

/-- The offsets at which consecutive records sit in the log file, starting
from `base`: the shape of the in-memory mirror in a sequential run. -/
def offsetsFrom (base : Nat) : List KVMemoryRepr → List (Nat × KVMemoryRepr)
  | [] => []
  | r :: t => (base, r) :: offsetsFrom (base + (serBytes r).length) t

/-- Well-formedness of a run against its backing record vector. -/
def RunWF (T : SSTable) (l : List KVMemoryRepr) : Prop :=
  StrictSorted l ∧ (∀ e ∈ l, e.wf ∧ e.valid = true)
    ∧ sstableOfEntries T.id l = .ok T

/-- The engine invariant maintained by every operation. -/
structure EngineInv (st : Engine) : Prop where
  mirror_eq : st.in_memory = offsetsFrom 0 (st.in_memory.map Prod.snd)
  woff_eq : st.write_offset
      = ((st.in_memory.map Prod.snd).flatMap serBytes).length
  woff_le : st.write_offset ≤ FILE_SIZE_BYTES
  file_eq : st.file = (st.in_memory.map Prod.snd).flatMap serBytes
      ++ List.replicate (FILE_SIZE_BYTES - st.write_offset) 0
  mirror_wf : ∀ e ∈ st.in_memory.map Prod.snd, e.wf ∧ e.valid = true
  runs_wf : ∀ T ∈ st.sstables, ∃ l, RunWF T l
  ids_nodup : (st.sstables.map SSTable.id).Nodup
  ids_lt : ∀ T ∈ st.sstables, T.id < st.nextId

theorem find?_filter_head {α} (p : α → Bool) :
    ∀ l : List α, l.find? p = (l.filter p).head? := by
  intro l
  induction l with
  | nil => rfl
  | cons x t ih =>
    rw [List.find?_cons, List.filter_cons]
    cases hx : p x
    · simpa using ih
    · simp

theorem reverse_find?_getLast {α} (p : α → Bool) (l : List α) :
    l.reverse.find? p = (l.filter p).getLast? := by
  rw [find?_filter_head, List.filter_reverse, List.head?_reverse]

theorem offsetsFrom_map_snd :
    ∀ (l : List KVMemoryRepr) (b : Nat),
      (offsetsFrom b l).map Prod.snd = l := by
  intro l
  induction l with
  | nil => intro b; rfl
  | cons r t ih =>
    intro b
    rw [offsetsFrom, List.map_cons, ih]

theorem offsetsFrom_fst_ge :
    ∀ (l : List KVMemoryRepr) (b : Nat), ∀ p ∈ offsetsFrom b l, b ≤ p.1 := by
  intro l
  induction l with
  | nil => intro b p hp; exact absurd hp (by simp [offsetsFrom])
  | cons r t ih =>
    intro b p hp
    rw [offsetsFrom] at hp
    rcases List.mem_cons.mp hp with rfl | hp2
    · exact le_rfl
    · exact le_trans (by omega) (ih _ p hp2)

theorem offsetsFrom_sorted :
    ∀ (l : List KVMemoryRepr) (b : Nat),
      (offsetsFrom b l).Pairwise (fun a c => a.1 ≤ c.1) := by
  intro l
  induction l with
  | nil => intro b; exact List.Pairwise.nil
  | cons r t ih =>
    intro b
    rw [offsetsFrom]
    refine List.pairwise_cons.mpr ⟨?_, ih _⟩
    intro q hq
    exact le_trans (by omega) (offsetsFrom_fst_ge t _ q hq)

theorem offsetsFrom_append :
    ∀ (l : List KVMemoryRepr) (r : KVMemoryRepr) (b : Nat),
      offsetsFrom b (l ++ [r])
        = offsetsFrom b l ++ [(b + (l.flatMap serBytes).length, r)] := by
  intro l
  induction l with
  | nil => intro r b; simp [offsetsFrom]
  | cons x t ih =>
    intro r b
    rw [List.cons_append, offsetsFrom, ih, offsetsFrom]
    simp
    omega

theorem insertSortedBy_ge {α} (f : α → Nat) (x : α) :
    ∀ l : List α, (∀ y ∈ l, f y ≤ f x) → insertSortedBy f x l = l ++ [x] := by
  intro l
  induction l with
  | nil => intro _; rfl
  | cons y t ih =>
    intro h
    rw [insertSortedBy, if_pos (h y (by simp)), ih]
    · rfl
    · intro z hz
      exact h z (by simp [hz])

theorem foldl_insertSortedBy_sorted {α} (f : α → Nat) :
    ∀ (l acc : List α),
      (acc ++ l).Pairwise (fun a b => f a ≤ f b) →
      l.foldl (fun acc x => insertSortedBy f x acc) acc = acc ++ l := by
  intro l
  induction l with
  | nil => intro acc _; simp
  | cons x t ih =>
    intro acc hs
    rw [List.foldl_cons]
    have hins : insertSortedBy f x acc = acc ++ [x] := by
      refine insertSortedBy_ge f x acc ?_
      intro y hy
      have := (List.pairwise_append.mp hs).2.2 y hy x (by simp)
      exact this
    rw [hins, ih]
    · simp
    · have : acc ++ [x] ++ t = acc ++ x :: t := by simp
      rw [this]
      exact hs

theorem insertion_sort_of_sorted {α} (f : α → Nat) (l : List α)
    (h : l.Pairwise (fun a b => f a ≤ f b)) :
    insertion_sort_by_key f l = l := by
  unfold insertion_sort_by_key
  have := foldl_insertSortedBy_sorted f l [] (by simpa using h)
  simpa using this

theorem offsetsFrom_filter_snd (q : KVMemoryRepr → Bool) :
    ∀ (l : List KVMemoryRepr) (b : Nat),
      ((offsetsFrom b l).filter (fun e => q e.2)).map Prod.snd
        = l.filter q := by
  intro l
  induction l with
  | nil => intro b; rfl
  | cons r t ih =>
    intro b
    rw [offsetsFrom, List.filter_cons, List.filter_cons]
    cases hq : q r
    · simpa using ih _
    · simpa using ih _

theorem find_key_offsetsFrom (l : List KVMemoryRepr) (k b : Nat) :
    find_key (offsetsFrom b l) k
      = match (l.filter (fun r => r.key = k)).getLast? with
        | some e =>
            match e.value with
            | some v => .found v
            | Option.none => .tombstone
        | Option.none => .none := by
  unfold find_key
  rw [reverse_find?_getLast]
  have hfl : (l.filter (fun r => decide (r.key = k))).getLast?
      = (((offsetsFrom b l).filter (fun e => decide (e.2.key = k))).map
          Prod.snd).getLast? := by
    rw [offsetsFrom_filter_snd (fun r => decide (r.key = k)) l b]
  rw [hfl, List.getLast?_map]
  cases hg : ((offsetsFrom b l).filter (fun e => decide (e.2.key = k))).getLast?
  · rfl
  · rfl

theorem lastWriteOpt_append_write_eq (hist : List Op) (k : Nat)
    (v : Option Nat) :
    lastWriteOpt (hist ++ [.write k v]) k = some v := by
  unfold lastWriteOpt
  rw [List.filterMap_append]
  have h1 : List.filterMap (fun op =>
      match op with
      | .write k2 v2 => if k2 = k then some v2 else Option.none
      | .compact => Option.none) [Op.write k v] = [v] := by
    simp
  rw [h1, List.getLast?_concat]

theorem lastWriteOpt_append_write_ne (hist : List Op) {k k2 : Nat}
    (v : Option Nat) (h : k2 ≠ k) :
    lastWriteOpt (hist ++ [.write k2 v]) k = lastWriteOpt hist k := by
  unfold lastWriteOpt
  rw [List.filterMap_append]
  have h1 : List.filterMap (fun op =>
      match op with
      | .write k3 v2 => if k3 = k then some v2 else Option.none
      | .compact => Option.none) [Op.write k2 v] = [] := by
    simp [h]
  rw [h1, List.append_nil]

theorem lastWriteOpt_append_compact (hist : List Op) (k : Nat) :
    lastWriteOpt (hist ++ [.compact]) k = lastWriteOpt hist k := by
  unfold lastWriteOpt
  rw [List.filterMap_append]
  have h1 : List.filterMap (fun op =>
      match op with
      | .write k3 v2 => if k3 = k then some v2 else Option.none
      | .compact => Option.none) [Op.compact] = [] := by
    simp
  rw [h1, List.append_nil]

theorem write_at_flat (recs : List KVMemoryRepr) (bs : List Nat) {n : Nat}
    (h : bs.length ≤ n) :
    write_data_at_offset (recs.flatMap serBytes ++ List.replicate n 0) bs
        (recs.flatMap serBytes).length
      = (recs.flatMap serBytes ++ bs) ++ List.replicate (n - bs.length) 0 := by
  unfold write_data_at_offset
  rw [List.take_left, List.drop_append, List.drop_replicate, List.append_assoc]

theorem toList_head? {α} (o : Option α) : o.toList.head? = o := by
  cases o <;> rfl

theorem offsetsFrom_fst_le_total :
    ∀ (l : List KVMemoryRepr) (b : Nat), ∀ p ∈ offsetsFrom b l,
      p.1 ≤ b + (l.flatMap serBytes).length := by
  intro l
  induction l with
  | nil => intro b p hp; exact absurd hp (by simp [offsetsFrom])
  | cons r t ih =>
    intro b p hp
    rw [offsetsFrom] at hp
    rcases List.mem_cons.mp hp with rfl | hp2
    · simp
    · have := ih (b + (serBytes r).length) p hp2
      simp only [List.flatMap_cons, List.length_append]
      omega

theorem sortDedup_find? (l : List KVMemoryRepr) (k : Nat) :
    (sortDedup l).find? (fun e => e.key = k)
      = (l.filter (fun e => e.key = k)).getLast? := by
  rw [find?_filter_head, sortDedup_filter, toList_head?]

theorem sstableOfEntries_id {id : Nat} {l : List KVMemoryRepr} {T : SSTable}
    (h : sstableOfEntries id l = .ok T) : T.id = id := by
  rw [sstableOfEntries_ok] at h
  injection h with h2
  rw [← h2]

theorem RunWF_of_ok {id : Nat} {l : List KVMemoryRepr} {T : SSTable}
    (hs : StrictSorted l) (hwf : ∀ e ∈ l, e.wf ∧ e.valid = true)
    (h : sstableOfEntries id l = .ok T) : RunWF T l :=
  ⟨hs, hwf, by rw [sstableOfEntries_id h]; exact h⟩

theorem log_conv_of_inv {st : Engine} (hinv : EngineInv st) (id : Nat) :
    log_file_to_sstable id st.file
      = sstableOfEntries id (sortDedup (st.in_memory.map Prod.snd)) := by
  unfold log_file_to_sstable
  rw [hinv.file_eq, scan_flatMap_serBytes hinv.mirror_wf]

/-- One successful `write_key` in a well-formed engine: it succeeds, keeps
the invariant, and afterwards every read observes the written key's new
value and every other key's old value. -/
theorem writeKey_step {st : Engine} {hist : List Op} (k : Nat) (v : Option Nat)
    (hinv : EngineInv st)
    (hro : ∀ k2, read st k2 = .ok (lastWrittenVal hist k2))
    (hk : k < 2 ^ 64) (hv : v.getD 0 < 2 ^ 64) :
    ∃ st2, writeKey k v st = (st2, Option.none) ∧ EngineInv st2
      ∧ ∀ k2, read st2 k2
          = .ok (lastWrittenVal (hist ++ [Op.write k v]) k2) := by
  have hrwf : (KVMemoryRepr.new k v).wf := ⟨hk, hv⟩
  have hmir : st.in_memory = offsetsFrom 0 (st.in_memory.map Prod.snd) :=
    hinv.mirror_eq
  have hrecwf : ∀ e ∈ st.in_memory.map Prod.snd, e.wf ∧ e.valid = true :=
    hinv.mirror_wf
  have hlast_eq : lastWrittenVal (hist ++ [Op.write k v]) k = v := by
    unfold lastWrittenVal
    rw [lastWriteOpt_append_write_eq]
    rfl
  have hlast_ne : ∀ k2, k2 ≠ k →
      lastWrittenVal (hist ++ [Op.write k v]) k2 = lastWrittenVal hist k2 := by
    intro k2 h2
    unfold lastWrittenVal
    rw [lastWriteOpt_append_write_ne _ _ (fun h => h2 h.symm)]
  by_cases hfit :
      (serBytes (KVMemoryRepr.new k v)).length
        > FILE_SIZE_BYTES - st.write_offset
  · -- Rotation path: the record does not fit, the log is converted.
    have hlen21 : (serBytes (KVMemoryRepr.new k v)).length ≤ 21 :=
      serBytes_length_le _
    have hslot : calculate_log_slot (serBytes (KVMemoryRepr.new k v)).length
        st.write_offset = Option.none := by
      unfold calculate_log_slot
      rw [if_pos hfit]
    have hconv : log_file_to_sstable st.nextId st.file
        = sstableOfEntries st.nextId
            (sortDedup (st.in_memory.map Prod.snd)) :=
      log_conv_of_inv hinv st.nextId
    obtain ⟨Ttbl, hok⟩ : ∃ T, sstableOfEntries st.nextId
        (sortDedup (st.in_memory.map Prod.snd)) = .ok T :=
      ⟨_, sstableOfEntries_ok _ _⟩
    have hTid : Ttbl.id = st.nextId := sstableOfEntries_id hok
    have hTwf : RunWF Ttbl (sortDedup (st.in_memory.map Prod.snd)) :=
      RunWF_of_ok (sortDedup_sorted _)
        (fun e he => hrecwf e (sortDedup_subset _ e he)) hok
    have hslot0 : calculate_log_slot (serBytes (KVMemoryRepr.new k v)).length 0
        = some 0 := by
      unfold calculate_log_slot
      rw [if_neg]
      have hF : FILE_SIZE_BYTES = 16384 := rfl
      omega
    refine ⟨{ st with
        file := serBytes (KVMemoryRepr.new k v)
          ++ List.replicate
              (FILE_SIZE_BYTES - (serBytes (KVMemoryRepr.new k v)).length) 0,
        write_offset := (serBytes (KVMemoryRepr.new k v)).length,
        in_memory := [(0, KVMemoryRepr.new k v)],
        sstables := Ttbl :: st.sstables,
        nextId := st.nextId + 1 }, ?_, ?_, ?_⟩
    · unfold writeKey writeKeyFull
      rw [serialize_eq_ok]
      dsimp only
      rw [hslot]
      dsimp only
      rw [if_pos rfl, hconv, hok]
      dsimp only
      rw [if_pos rfl, hslot0]
      dsimp only
      have hfile : write_data_at_offset (List.replicate FILE_SIZE_BYTES 0)
          (serBytes (KVMemoryRepr.new k v)) 0
          = serBytes (KVMemoryRepr.new k v)
            ++ List.replicate
                (FILE_SIZE_BYTES - (serBytes (KVMemoryRepr.new k v)).length)
                0 := by
        unfold write_data_at_offset
        rw [List.take_zero, List.drop_replicate, List.nil_append, Nat.zero_add]
      rw [hfile]
      rfl
    · refine ⟨rfl, by simp, ?_, by simp, ?_, ?_, ?_, ?_⟩
      · show (serBytes (KVMemoryRepr.new k v)).length ≤ FILE_SIZE_BYTES
        have hF : FILE_SIZE_BYTES = 16384 := rfl
        omega
      · intro e he
        simp at he
        subst he
        exact ⟨hrwf, rfl⟩
      · intro T2 hT2
        rcases List.mem_cons.mp hT2 with rfl | h2
        · exact ⟨_, hTwf⟩
        · exact hinv.runs_wf T2 h2
      · show (Ttbl.id :: st.sstables.map SSTable.id).Nodup
        refine List.nodup_cons.mpr ⟨?_, hinv.ids_nodup⟩
        intro hmem
        obtain ⟨T2, hT2m, hT2id⟩ := List.mem_map.mp hmem
        have := hinv.ids_lt T2 hT2m
        rw [hT2id, hTid] at this
        omega
      · intro T2 hT2
        rcases List.mem_cons.mp hT2 with rfl | h2
        · show T2.id < st.nextId + 1
          rw [hTid]
          omega
        · have := hinv.ids_lt T2 h2
          show T2.id < st.nextId + 1
          omega
    · intro k2
      by_cases hk2 : k2 = k
      · subst hk2
        rw [hlast_eq]
        unfold read
        have hdec : decide ((KVMemoryRepr.new k2 v).key = k2) = true := by
          simp [KVMemoryRepr.new]
        have hfk : find_key [(0, KVMemoryRepr.new k2 v)] k2
            = match v with
              | some v0 => FindResult.found v0
              | Option.none => FindResult.tombstone := by
          unfold find_key
          simp only [List.reverse_cons, List.reverse_nil, List.nil_append,
            List.find?_cons, hdec]
          cases v <;> rfl
        rw [hfk]
        cases v <;> rfl
      · rw [hlast_ne k2 hk2, ← hro k2]
        unfold read
        have hdec : decide ((KVMemoryRepr.new k v).key = k2) = false :=
          decide_eq_false (fun h => hk2 (by
            have : (KVMemoryRepr.new k v).key = k := rfl
            rw [this] at h
            exact h.symm))
        have hfk : find_key [(0, KVMemoryRepr.new k v)] k2 = FindResult.none := by
          unfold find_key
          simp only [List.reverse_cons, List.reverse_nil, List.nil_append,
            List.find?_cons, hdec]
          rfl
        rw [hfk]
        show find_in_sstables (Ttbl :: st.sstables) k2 = _
        rw [find_in_sstables]
        have hTfind : Ttbl.find k2
            = .ok (lookupResult (sortDedup (st.in_memory.map Prod.snd)) k2) :=
          find_eq_lookup (sortDedup_sorted _)
            (fun e he => hrecwf e (sortDedup_subset _ e he)) hok k2
        rw [hTfind]
        have hlu : lookupResult (sortDedup (st.in_memory.map Prod.snd)) k2
            = match ((st.in_memory.map Prod.snd).filter
                  (fun e => e.key = k2)).getLast? with
              | some e =>
                  match e.value with
                  | some v0 => FindResult.found v0
                  | Option.none => FindResult.tombstone
              | Option.none => FindResult.none := by
          unfold lookupResult
          rw [sortDedup_find?]
        rw [hlu]
        have hfks : find_key st.in_memory k2
            = match ((st.in_memory.map Prod.snd).filter
                  (fun e => e.key = k2)).getLast? with
              | some e =>
                  match e.value with
                  | some v0 => FindResult.found v0
                  | Option.none => FindResult.tombstone
              | Option.none => FindResult.none := by
          conv_lhs => rw [hmir]
          rw [find_key_offsetsFrom]
        rw [hfks]
        cases hg : ((st.in_memory.map Prod.snd).filter
            (fun e => decide (e.key = k2))).getLast? with
        | none => rfl
        | some e =>
          dsimp only
          cases e.value <;> rfl
  · -- The record fits at the current write offset.
    have hslot : calculate_log_slot (serBytes (KVMemoryRepr.new k v)).length
        st.write_offset = some st.write_offset := by
      unfold calculate_log_slot
      rw [if_neg hfit]
    refine ⟨{ st with
        file := ((st.in_memory.map Prod.snd).flatMap serBytes
            ++ serBytes (KVMemoryRepr.new k v))
          ++ List.replicate (FILE_SIZE_BYTES - (st.write_offset
              + (serBytes (KVMemoryRepr.new k v)).length)) 0,
        write_offset := st.write_offset
          + (serBytes (KVMemoryRepr.new k v)).length,
        in_memory := offsetsFrom 0
          (st.in_memory.map Prod.snd ++ [KVMemoryRepr.new k v]) },
      ?_, ?_, ?_⟩
    · unfold writeKey writeKeyFull
      rw [serialize_eq_ok]
      dsimp only
      rw [hslot]
      dsimp only
      have hfile : write_data_at_offset st.file
          (serBytes (KVMemoryRepr.new k v)) st.write_offset
          = ((st.in_memory.map Prod.snd).flatMap serBytes
              ++ serBytes (KVMemoryRepr.new k v))
            ++ List.replicate (FILE_SIZE_BYTES - (st.write_offset
                + (serBytes (KVMemoryRepr.new k v)).length)) 0 := by
        rw [hinv.file_eq]
        have hwo : st.write_offset
            = ((st.in_memory.map Prod.snd).flatMap serBytes).length :=
          hinv.woff_eq
        rw [hwo]
        rw [write_at_flat _ _ (by
          have := hinv.woff_le
          rw [hwo] at hfit this
          omega)]
        have harith : FILE_SIZE_BYTES
              - ((st.in_memory.map Prod.snd).flatMap serBytes).length
              - (serBytes (KVMemoryRepr.new k v)).length
            = FILE_SIZE_BYTES
              - (((st.in_memory.map Prod.snd).flatMap serBytes).length
                + (serBytes (KVMemoryRepr.new k v)).length) := by
          omega
        rw [harith]
      have hmem : insertion_sort_by_key Prod.fst
          (st.in_memory ++ [(st.write_offset, KVMemoryRepr.new k v)])
          = offsetsFrom 0
              (st.in_memory.map Prod.snd ++ [KVMemoryRepr.new k v]) := by
        rw [offsetsFrom_append]
        have hwo : st.write_offset
            = 0 + ((st.in_memory.map Prod.snd).flatMap serBytes).length := by
          have := hinv.woff_eq
          omega
        rw [← hwo]
        conv_lhs => rw [hmir]
        refine insertion_sort_of_sorted _ _ ?_
        refine List.pairwise_append.mpr
          ⟨offsetsFrom_sorted _ _, List.pairwise_singleton _ _, ?_⟩
        intro p hp q hq
        simp at hq
        subst hq
        have h1 := offsetsFrom_fst_le_total _ _ p hp
        have h2 := hinv.woff_eq
        show p.1 ≤ st.write_offset
        omega
      rw [hfile, hmem]
    · refine ⟨?_, ?_, ?_, ?_, ?_, hinv.runs_wf, hinv.ids_nodup,
        hinv.ids_lt⟩
      · show offsetsFrom 0 _ = offsetsFrom 0 ((offsetsFrom 0 _).map Prod.snd)
        rw [offsetsFrom_map_snd]
      · show st.write_offset + (serBytes (KVMemoryRepr.new k v)).length
          = (((offsetsFrom 0 (st.in_memory.map Prod.snd
              ++ [KVMemoryRepr.new k v])).map Prod.snd).flatMap
                serBytes).length
        rw [offsetsFrom_map_snd, List.flatMap_append, List.length_append,
          hinv.woff_eq]
        simp
      · show st.write_offset + (serBytes (KVMemoryRepr.new k v)).length
          ≤ FILE_SIZE_BYTES
        have h1 := hinv.woff_le
        omega
      · show ((st.in_memory.map Prod.snd).flatMap serBytes
            ++ serBytes (KVMemoryRepr.new k v))
          ++ List.replicate (FILE_SIZE_BYTES - (st.write_offset
              + (serBytes (KVMemoryRepr.new k v)).length)) 0
          = ((offsetsFrom 0 (st.in_memory.map Prod.snd
              ++ [KVMemoryRepr.new k v])).map Prod.snd).flatMap serBytes
            ++ List.replicate (FILE_SIZE_BYTES - (st.write_offset
                + (serBytes (KVMemoryRepr.new k v)).length)) 0
        rw [offsetsFrom_map_snd, List.flatMap_append]
        simp
      · show ∀ e ∈ (offsetsFrom 0 (st.in_memory.map Prod.snd
            ++ [KVMemoryRepr.new k v])).map Prod.snd, e.wf ∧ e.valid = true
        rw [offsetsFrom_map_snd]
        intro e he
        rcases List.mem_append.mp he with h1 | h2
        · exact hrecwf e h1
        · simp at h2
          subst h2
          exact ⟨hrwf, rfl⟩
    · intro k2
      by_cases hk2 : k2 = k
      · subst hk2
        rw [hlast_eq]
        unfold read
        dsimp only
        rw [find_key_offsetsFrom, List.filter_append]
        have hdec : decide ((KVMemoryRepr.new k2 v).key = k2) = true := by
          simp [KVMemoryRepr.new]
        have hfr : [KVMemoryRepr.new k2 v].filter
            (fun e => decide (e.key = k2)) = [KVMemoryRepr.new k2 v] := by
          rw [List.filter_cons]
          rw [hdec]
          rfl
        rw [hfr, List.getLast?_concat]
        cases v <;> rfl
      · rw [hlast_ne k2 hk2, ← hro k2]
        unfold read
        dsimp only
        rw [find_key_offsetsFrom, List.filter_append]
        have hdec : decide ((KVMemoryRepr.new k v).key = k2) = false :=
          decide_eq_false (fun h => hk2 (by
            have hkk : (KVMemoryRepr.new k v).key = k := rfl
            rw [hkk] at h
            exact h.symm))
        have hfr : [KVMemoryRepr.new k v].filter
            (fun e => decide (e.key = k2)) = [] := by
          rw [List.filter_cons]
          rw [hdec]
          rfl
        rw [hfr, List.append_nil]
        conv_rhs => rw [hmir]
        rw [find_key_offsetsFrom]

/-- Three-valued version of the run-scanning loop, keeping the tombstone
outcome distinct from falling off the end of the list. -/
def findAcross : List SSTable → Nat → Except Error FindResult
  | [], _ => .ok .none
  | t :: rest, k =>
      match t.find k with
      | .error er => .error er
      | .ok (.found v) => .ok (.found v)
      | .ok .tombstone => .ok .tombstone
      | .ok .none => findAcross rest k

theorem find_in_sstables_eq_findAcross :
    ∀ (ts : List SSTable) (k : Nat),
      find_in_sstables ts k
        = match findAcross ts k with
          | .error er => .error er
          | .ok (.found v) => .ok (some v)
          | .ok .tombstone => .ok Option.none
          | .ok .none => .ok Option.none := by
  intro ts
  induction ts with
  | nil => intro k; rfl
  | cons t rest ih =>
    intro k
    rw [find_in_sstables, findAcross]
    cases ht : t.find k with
    | error er => rfl
    | ok fr => cases fr with
      | found v => rfl
      | tombstone => rfl
      | none => exact ih k

theorem findAcross_append :
    ∀ (A B : List SSTable) (k : Nat),
      findAcross (A ++ B) k
        = match findAcross A k with
          | .error er => .error er
          | .ok (.found v) => .ok (.found v)
          | .ok .tombstone => .ok .tombstone
          | .ok .none => findAcross B k := by
  intro A
  induction A with
  | nil => intro B k; rfl
  | cons t rest ih =>
    intro B k
    rw [List.cons_append, findAcross, findAcross]
    cases ht : t.find k with
    | error er => rfl
    | ok fr => cases fr with
      | found v => rfl
      | tombstone => rfl
      | none => exact ih B k

theorem find_in_sstables_congr_suffix {X Y : List SSTable} (A : List SSTable)
    (k : Nat) (h : find_in_sstables X k = find_in_sstables Y k) :
    find_in_sstables (A ++ X) k = find_in_sstables (A ++ Y) k := by
  rw [find_in_sstables_eq_findAcross (A ++ X),
    find_in_sstables_eq_findAcross (A ++ Y),
    findAcross_append, findAcross_append]
  cases h1 : findAcross A k with
  | error er => rfl
  | ok fr =>
    cases fr with
    | found v => rfl
    | tombstone => rfl
    | none =>
      dsimp only
      rw [← find_in_sstables_eq_findAcross, ← find_in_sstables_eq_findAcross]
      exact h

theorem find_in_sstables_congr_mid {X Y : List SSTable} (A C : List SSTable)
    (k : Nat) (h : findAcross X k = findAcross Y k) :
    find_in_sstables (A ++ X ++ C) k = find_in_sstables (A ++ Y ++ C) k := by
  rw [List.append_assoc, List.append_assoc]
  refine find_in_sstables_congr_suffix A k ?_
  rw [find_in_sstables_eq_findAcross (X ++ C),
    find_in_sstables_eq_findAcross (Y ++ C),
    findAcross_append, findAcross_append, h]

/-- Scanning a group of well-formed runs newest-first observes, for every
key, the newest record among the group's backing vectors. -/
theorem findAcross_eq_listsLookup :
    ∀ {seg : List SSTable} {ls : List (List KVMemoryRepr)},
      List.Forall₂ RunWF seg ls → ∀ k,
      findAcross seg k
        = match listsLookup ls k with
          | some r =>
              match r.value with
              | some v => .ok (.found v)
              | Option.none => .ok .tombstone
          | Option.none => .ok .none := by
  intro seg ls hrel
  induction hrel with
  | nil => intro k; rfl
  | @cons T l seg2 ls2 hTl hrel2 ih =>
    intro k
    rw [findAcross]
    have hfind : T.find k = .ok (lookupResult l k) :=
      find_eq_lookup hTl.1 hTl.2.1 hTl.2.2 k
    rw [hfind]
    have hlu : listsLookup (l :: ls2) k
        = match l.find? (fun e => e.key = k) with
          | some e => some e
          | Option.none => listsLookup ls2 k := by
      unfold listsLookup
      rw [List.findSome?_cons]
      cases l.find? (fun e => e.key = k) <;> rfl
    rw [hlu]
    unfold lookupResult
    cases hf : l.find? (fun e => e.key = k) with
    | none => exact ih k
    | some e =>
      dsimp only
      cases e.value <;> rfl

/-- What scanning just the merged run observes, in terms of the group's
newest record per key and the `save_tombstones` flag. -/
theorem findAcross_merged {ls : List (List KVMemoryRepr)}
    (hs : ∀ l ∈ ls, StrictSorted l)
    (hwf : ∀ l ∈ ls, ∀ e ∈ l, e.wf ∧ e.valid = true)
    {id : Nat} {M : SSTable} {save : Bool}
    (hok : sstableOfEntries id (merge_sstable_contents ls save) = .ok M)
    (k : Nat) :
    findAcross [M] k
      = match listsLookup ls k with
        | some r =>
            if save || r.value.isSome then
              match r.value with
              | some v => .ok (.found v)
              | Option.none => .ok .tombstone
            else .ok .none
        | Option.none => .ok .none := by
  obtain ⟨hmem, hsort, hfindspec⟩ := merge_contents_spec save ls hs
  have hmwf : ∀ e ∈ merge_sstable_contents ls save, e.wf ∧ e.valid = true := by
    intro e he
    obtain ⟨l, hl, hel⟩ := hmem e he
    exact hwf l hl e hel
  have hfind : M.find k = .ok (lookupResult (merge_sstable_contents ls save) k) :=
    find_eq_lookup hsort hmwf hok k
  rw [findAcross, hfind]
  unfold lookupResult
  rw [hfindspec k]
  cases hl : listsLookup ls k with
  | none => rfl
  | some r =>
    dsimp only
    by_cases hc : (save || r.value.isSome) = true
    · rw [if_pos hc, if_pos hc]
      dsimp only
      cases r.value <;> rfl
    · rw [if_neg hc, if_neg hc]
      dsimp only
      rfl

/-- With `save_tombstones` on, the merged run is observationally equal to
the group it replaces at every position of the scan. -/
theorem seg_vs_merged_strong {seg : List SSTable}
    {ls : List (List KVMemoryRepr)} (hrel : List.Forall₂ RunWF seg ls)
    (hs : ∀ l ∈ ls, StrictSorted l)
    (hwf : ∀ l ∈ ls, ∀ e ∈ l, e.wf ∧ e.valid = true)
    {id : Nat} {M : SSTable}
    (hok : sstableOfEntries id (merge_sstable_contents ls true) = .ok M)
    (k : Nat) : findAcross seg k = findAcross [M] k := by
  rw [findAcross_eq_listsLookup hrel k, findAcross_merged hs hwf hok k]
  cases hl : listsLookup ls k with
  | none => rfl
  | some r =>
    dsimp only
    rw [if_pos (by simp)]

/-- With `save_tombstones` off, the merged run agrees with the group it
replaces when nothing follows it in the scan: a dropped tombstone and an
exhausted scan both read as absent. -/
theorem seg_vs_merged_weak {seg : List SSTable}
    {ls : List (List KVMemoryRepr)} (hrel : List.Forall₂ RunWF seg ls)
    (hs : ∀ l ∈ ls, StrictSorted l)
    (hwf : ∀ l ∈ ls, ∀ e ∈ l, e.wf ∧ e.valid = true)
    {id : Nat} {M : SSTable}
    (hok : sstableOfEntries id (merge_sstable_contents ls false) = .ok M)
    (k : Nat) : find_in_sstables seg k = find_in_sstables [M] k := by
  rw [find_in_sstables_eq_findAcross, find_in_sstables_eq_findAcross,
    findAcross_eq_listsLookup hrel k, findAcross_merged hs hwf hok k]
  cases hl : listsLookup ls k with
  | none => rfl
  | some r =>
    dsimp only
    cases hv : r.value with
    | none => rfl
    | some v => rfl

theorem filterMap_keep {ids : List Nat} {M : SSTable} :
    ∀ {L : List SSTable}, (∀ T ∈ L, T.id ∉ ids) →
      L.filterMap (fun t =>
        if t.id ∈ ids then
          (if t.id = ids.headD 0 then some M else Option.none)
        else some t) = L := by
  intro L
  induction L with
  | nil => intro _; rfl
  | cons t rest ih =>
    intro h
    rw [List.filterMap_cons]
    rw [if_neg (h t (by simp))]
    rw [ih (fun T hT => h T (by simp [hT]))]

theorem filterMap_drop {ids : List Nat} {M : SSTable} :
    ∀ {L : List SSTable}, (∀ T ∈ L, T.id ∈ ids ∧ T.id ≠ ids.headD 0) →
      L.filterMap (fun t =>
        if t.id ∈ ids then
          (if t.id = ids.headD 0 then some M else Option.none)
        else some t) = [] := by
  intro L
  induction L with
  | nil => intro _; rfl
  | cons t rest ih =>
    intro h
    rw [List.filterMap_cons]
    rw [if_pos (h t (by simp)).1, if_neg (h t (by simp)).2]
    exact ih (fun T hT => h T (by simp [hT]))

/-- Replacing a group by its merged run: every table whose id is in the
replaced window collapses into the merged one, placed at the window's first
id; surrounding tables (whose ids are distinct) are kept. -/
theorem replaceByIds_split (A C : List SSTable) {seg : List SSTable}
    (M : SSTable) (hseg : seg ≠ [])
    (hA : ∀ T ∈ A, T.id ∉ seg.map SSTable.id)
    (hC : ∀ T ∈ C, T.id ∉ seg.map SSTable.id)
    (hnd : (seg.map SSTable.id).Nodup) :
    replaceByIds (seg.map SSTable.id) M (A ++ seg ++ C)
      = A ++ [M] ++ C := by
  unfold replaceByIds
  rw [List.filterMap_append, List.filterMap_append]
  rw [filterMap_keep hA, filterMap_keep hC]
  have hseg2 : seg.filterMap (fun t =>
      if t.id ∈ seg.map SSTable.id then
        (if t.id = (seg.map SSTable.id).headD 0 then some M else Option.none)
      else some t) = [M] := by
    cases seg with
    | nil => exact absurd rfl hseg
    | cons s0 stail =>
      rw [List.filterMap_cons]
      have h0 : s0.id ∈ (s0 :: stail).map SSTable.id := by simp
      have hhd : ((s0 :: stail).map SSTable.id).headD 0 = s0.id := rfl
      rw [if_pos h0, if_pos hhd.symm]
      have htail : stail.filterMap (fun t =>
          if t.id ∈ (s0 :: stail).map SSTable.id then
            (if t.id = ((s0 :: stail).map SSTable.id).headD 0 then some M
             else Option.none)
          else some t) = [] := by
        refine filterMap_drop ?_
        intro T hT
        constructor
        · simp only [List.map_cons, List.mem_cons, List.mem_map]
          exact Or.inr ⟨T, hT, rfl⟩
        · rw [hhd]
          intro heq
          have hnotin : s0.id ∉ stail.map SSTable.id :=
            (List.nodup_cons.mp (by simpa using hnd)).1
          exact hnotin (heq ▸ List.mem_map_of_mem SSTable.id hT)
      dsimp only
      rw [htail]
  rw [hseg2]

theorem relocateIds_isSome {ids : List Nat} (hne : ids ≠ []) :
    ∀ (tbls : List SSTable), (∃ n, idsMatchAt ids (tbls.drop n) = true) →
      (relocateIds ids tbls).isSome := by
  intro tbls
  induction tbls with
  | nil =>
    rintro ⟨n, hn⟩
    rw [List.drop_nil] at hn
    unfold idsMatchAt at hn
    rw [Bool.and_eq_true] at hn
    have h2 := hn.2
    simp only [List.take_nil, List.map_nil, decide_eq_true_iff] at h2
    exact absurd h2.symm hne
  | cons t rest ih =>
    rintro ⟨n, hn⟩
    rw [relocateIds]
    by_cases hm : idsMatchAt ids (t :: rest) = true
    · rw [if_pos hm]
      rfl
    · rw [if_neg hm]
      cases n with
      | zero => exact absurd hn hm
      | succ m =>
        have := ih ⟨m, hn⟩
        simpa using this

theorem idsMatchAt_here (seg C : List SSTable) :
    idsMatchAt (seg.map SSTable.id) (seg ++ C) = true := by
  unfold idsMatchAt
  have hlen : (seg.map SSTable.id).length = seg.length := by simp
  rw [hlen]
  have htake : (seg ++ C).take seg.length = seg := List.take_left seg C
  rw [htake]
  simp

theorem sstableOfEntries_data {id : Nat} {l : List KVMemoryRepr} {T : SSTable}
    (h : sstableOfEntries id l = .ok T) : T.data = l.flatMap serBytes := by
  rw [sstableOfEntries_ok] at h
  injection h with h2
  rw [← h2]

theorem scanTables_of_RunWF :
    ∀ {G : List SSTable}, (∀ T ∈ G, ∃ l, RunWF T l) →
      ∃ ls, scanTables G = .ok ls
        ∧ List.Forall₂ RunWF G ls
        ∧ (∀ l ∈ ls, StrictSorted l)
        ∧ (∀ l ∈ ls, ∀ e ∈ l, e.wf ∧ e.valid = true) := by
  intro G
  induction G with
  | nil =>
    intro _
    exact ⟨[], rfl, List.Forall₂.nil, by simp, by simp⟩
  | cons T G2 ih =>
    intro h
    obtain ⟨l, hl⟩ := h T (by simp)
    obtain ⟨ls2, hscan2, hrel2, hs2, hwf2⟩ :=
      ih (fun T2 hT2 => h T2 (by simp [hT2]))
    have hdata : T.data = l.flatMap serBytes := sstableOfEntries_data hl.2.2
    have hscanT : deserialize_entries_from_bytes T.data = .ok l := by
      rw [hdata]
      have h0 := scan_flatMap_serBytes hl.2.1 0
      simpa using h0
    refine ⟨l :: ls2, ?_, List.Forall₂.cons hl hrel2, ?_, ?_⟩
    · rw [scanTables, hscanT, hscan2]
    · intro l2 hl2
      rcases List.mem_cons.mp hl2 with rfl | h2
      · exact hl.1
      · exact hs2 l2 h2
    · intro l2 hl2 e he
      rcases List.mem_cons.mp hl2 with rfl | h2
      · exact hl.2.1 e he
      · exact hwf2 l2 h2 e he

/-- Running the merges of one compaction pass: with every group's tables
well formed, every merge succeeds, each job inherits its plan entry's index
range, and the fresh ids are distinct and lie in `[nid, nid + #jobs)`. -/
theorem runMerges_ok (cur : List SSTable) :
    ∀ (plan : List ((Nat × Nat) × Bool)) (nid : Nat),
      (∀ p ∈ plan, ∀ T ∈ (cur.drop p.1.1).take (p.1.2 - p.1.1),
          ∃ l, RunWF T l) →
      ∃ jobs, runMerges nid cur plan = .ok jobs
        ∧ jobs.map Prod.fst = plan.map Prod.fst
        ∧ (jobs.map (fun j => j.2.id)).Nodup
        ∧ (∀ j ∈ jobs, nid ≤ j.2.id ∧ j.2.id < nid + plan.length
            ∧ ∃ l, RunWF j.2 l)
        ∧ List.Forall₂ (fun (p : (Nat × Nat) × Bool)
              (j : (Nat × Nat) × SSTable) =>
            p.1 = j.1 ∧ ∃ ls,
              List.Forall₂ RunWF ((cur.drop p.1.1).take (p.1.2 - p.1.1)) ls
              ∧ (∀ l ∈ ls, StrictSorted l)
              ∧ (∀ l ∈ ls, ∀ e ∈ l, e.wf ∧ e.valid = true)
              ∧ sstableOfEntries j.2.id (merge_sstable_contents ls p.2)
                  = .ok j.2) plan jobs := by
  intro plan
  induction plan with
  | nil =>
    intro nid _
    exact ⟨[], rfl, rfl, List.nodup_nil, by simp, List.Forall₂.nil⟩
  | cons p plan2 ih =>
    obtain ⟨⟨s, e⟩, save⟩ := p
    intro nid h
    obtain ⟨ls, hscan, hrel, hs, hwfl⟩ :=
      scanTables_of_RunWF (h ((s, e), save) (by simp))
    obtain ⟨M, hM⟩ : ∃ M, sstableOfEntries nid
        (merge_sstable_contents ls save) = .ok M :=
      ⟨_, sstableOfEntries_ok _ _⟩
    have hMid : M.id = nid := sstableOfEntries_id hM
    have hmerge : merge_sstables nid ((cur.drop s).take (e - s)) save
        = .ok M := by
      unfold merge_sstables
      rw [hscan]
      exact hM
    obtain ⟨jobs2, hrun2, hfst2, hnd2, hbound2, hrel2⟩ :=
      ih (nid + 1) (fun q hq => h q (by simp [hq]))
    have hMwf : ∃ l, RunWF M l := by
      obtain ⟨hmm, hsort, _⟩ := merge_contents_spec save ls hs
      refine ⟨merge_sstable_contents ls save, RunWF_of_ok hsort ?_ hM⟩
      intro e2 he2
      obtain ⟨l2, hl2, hel2⟩ := hmm e2 he2
      exact hwfl l2 hl2 e2 hel2
    refine ⟨((s, e), M) :: jobs2, ?_, ?_, ?_, ?_, ?_⟩
    · rw [runMerges, hmerge, hrun2]
    · simp [hfst2]
    · refine List.nodup_cons.mpr ⟨?_, hnd2⟩
      intro hmem
      obtain ⟨j, hj, hjid⟩ := List.mem_map.mp hmem
      have hb := (hbound2 j hj).1
      rw [hjid] at hb
      have hb2 : nid + 1 ≤ M.id := hb
      omega
    · intro j hj
      rcases List.mem_cons.mp hj with rfl | h2
      · refine ⟨?_, ?_, hMwf⟩
        · show nid ≤ M.id
          omega
        · show M.id < nid + (plan2.length + 1)
          omega
      · obtain ⟨h1, h2b, h3⟩ := hbound2 j h2
        exact ⟨by omega, by simpa [Nat.add_comm, Nat.add_assoc,
          Nat.add_left_comm] using Nat.lt_of_lt_of_le h2b (by omega), h3⟩
    · refine List.Forall₂.cons ⟨rfl, ls, hrel, hs, hwfl, ?_⟩ hrel2
      rw [hMid]
      exact hM

theorem nodup_three {A seg C : List SSTable}
    (hnd : ((A ++ seg ++ C).map SSTable.id).Nodup) :
    (∀ T ∈ A, T.id ∉ seg.map SSTable.id)
    ∧ (∀ T ∈ C, T.id ∉ seg.map SSTable.id)
    ∧ (seg.map SSTable.id).Nodup := by
  rw [List.map_append, List.map_append, List.nodup_append,
    List.nodup_append] at hnd
  obtain ⟨⟨hA, hseg, hd1⟩, hC, hd2⟩ := hnd
  refine ⟨?_, ?_, hseg⟩
  · intro T hT hmem
    exact hd1 (List.mem_map_of_mem SSTable.id hT) hmem
  · intro T hT hmem
    exact hd2 (List.mem_append.mpr (Or.inr hmem))
      (List.mem_map_of_mem SSTable.id hT)

theorem nodup_after_replace {A seg C : List SSTable} {M : SSTable}
    (hnd : ((A ++ seg ++ C).map SSTable.id).Nodup)
    (hM : M.id ∉ (A ++ seg ++ C).map SSTable.id) :
    ((A ++ [M] ++ C).map SSTable.id).Nodup := by
  rw [List.map_append, List.map_append, List.nodup_append,
    List.nodup_append] at hnd
  obtain ⟨⟨hA, _, _⟩, hC, hd2⟩ := hnd
  rw [List.map_append, List.map_append] at hM ⊢
  rw [List.nodup_append, List.nodup_append]
  rw [List.mem_append, List.mem_append] at hM
  refine ⟨⟨hA, List.nodup_singleton _, ?_⟩, hC, ?_⟩
  · intro a haA haM
    simp only [List.map_cons, List.map_nil, List.mem_singleton] at haM
    subst haM
    exact hM (Or.inl (Or.inl haA))
  · intro a ha haC
    rcases List.mem_append.mp ha with haA | haM
    · exact hd2 (List.mem_append.mpr (Or.inl haA)) haC
    · simp only [List.map_cons, List.map_nil, List.mem_singleton] at haM
      subst haM
      exact hM (Or.inr haC)

theorem take_decompose {α} (l : List α) {s e b : Nat} (hse : s ≤ e)
    (heb : e ≤ b) :
    l.take b
      = l.take s ++ (l.drop s).take (e - s) ++ (l.drop e).take (b - e) := by
  have hb : e + (b - e) = b := by omega
  have h1 := List.take_add l e (b - e)
  rw [hb] at h1
  have he2 : s + (e - s) = e := by omega
  have h2 := List.take_add l s (e - s)
  rw [he2] at h2
  rw [h1, h2]

theorem length_take_drop {α} (l : List α) {s e : Nat} (he : e ≤ l.length) :
    ((l.drop s).take (e - s)).length = e - s := by
  rw [List.length_take, List.length_drop]
  omega

theorem mem_of_mem_take_of_le {α} {l : List α} {s b : Nat} (hsb : s ≤ b)
    {T : α} (hT : T ∈ l.take s) : T ∈ l.take b := by
  have heq : l.take s = (l.take b).take s := by
    rw [List.take_take]
    congr 1
    omega
  rw [heq] at hT
  exact List.mem_of_mem_take hT

/-- The apply loop of a compaction pass: processing the planned groups
back to front, every relocation succeeds, every group is spliced out in
favour of its merged run, and the resulting run list is observationally
equal to the original, well formed, and has distinct ids below `NID`. -/
theorem applyLoop_spec (cur : List SSTable) (NID : Nat) :
    ∀ (jobs : List ((Nat × Nat) × SSTable)) (b : Nat) (rest : List SSTable),
      b ≤ cur.length →
      (b = cur.length → rest = []) →
      (∀ j ∈ jobs, j.1.1 < j.1.2 ∧ j.1.2 ≤ b) →
      jobs.Pairwise (fun p q => q.1.2 ≤ p.1.1) →
      ((cur.take b ++ rest).map SSTable.id).Nodup →
      (∀ T ∈ cur.take b ++ rest, ∃ l, RunWF T l) →
      (∀ T ∈ cur.take b ++ rest, T.id < NID) →
      (∀ j ∈ jobs, (∃ l, RunWF j.2 l) ∧ j.2.id < NID
        ∧ j.2.id ∉ (cur.take b ++ rest).map SSTable.id) →
      (jobs.map (fun j => j.2.id)).Nodup →
      (∀ j ∈ jobs,
        (∀ k, findAcross ((cur.drop j.1.1).take (j.1.2 - j.1.1)) k
            = findAcross [j.2] k)
        ∨ (j.1.2 = cur.length
            ∧ ∀ k, find_in_sstables ((cur.drop j.1.1).take (j.1.2 - j.1.1)) k
                = find_in_sstables [j.2] k)) →
      (∀ k, find_in_sstables (cur.take b ++ rest) k
          = find_in_sstables cur k) →
      ∃ fin, applyLoop cur jobs (cur.take b ++ rest) = some fin
        ∧ (∀ k, find_in_sstables fin k = find_in_sstables cur k)
        ∧ (∀ T ∈ fin, ∃ l, RunWF T l)
        ∧ (fin.map SSTable.id).Nodup
        ∧ (∀ T ∈ fin, T.id < NID) := by
  intro jobs
  induction jobs with
  | nil =>
    intro b rest _ _ _ _ hnd hwfall hlt _ _ _ hfs
    exact ⟨cur.take b ++ rest, rfl, hfs, hwfall, hnd, hlt⟩
  | cons j jobs2 ih =>
    obtain ⟨⟨s, e⟩, M⟩ := j
    intro b rest hble hbrest hseg_bounds hpair hnd hwfall hlt hjprops hjnd
      hsem hfs
    have hj0 := hseg_bounds ((s, e), M) (by simp)
    have hse : s < e := hj0.1
    have heb : e ≤ b := hj0.2
    -- Decompose the current table list around the group being replaced.
    have hdecomp : cur.take b
        = cur.take s ++ (cur.drop s).take (e - s)
          ++ (cur.drop e).take (b - e) :=
      take_decompose cur (by omega) heb
    have htbls : cur.take b ++ rest
        = cur.take s ++ (cur.drop s).take (e - s)
          ++ ((cur.drop e).take (b - e) ++ rest) := by
      rw [hdecomp, List.append_assoc]
    have hseglen : ((cur.drop s).take (e - s)).length = e - s :=
      length_take_drop cur (by omega)
    have hsegne : (cur.drop s).take (e - s) ≠ [] := by
      intro h0
      rw [h0] at hseglen
      simp at hseglen
      omega
    have hsegidsne : ((cur.drop s).take (e - s)).map SSTable.id ≠ [] := by
      intro h0
      exact hsegne (List.map_eq_nil_iff.mp h0)
    have hnd2 : ((cur.take s ++ (cur.drop s).take (e - s)
        ++ ((cur.drop e).take (b - e) ++ rest)).map SSTable.id).Nodup := by
      rw [← htbls]
      exact hnd
    obtain ⟨hdisjA, hdisjC, hndseg⟩ := nodup_three hnd2
    have hM0 := hjprops ((s, e), M) (by simp)
    have hMnotin : M.id ∉ ((cur.take s ++ (cur.drop s).take (e - s)
        ++ ((cur.drop e).take (b - e) ++ rest)).map SSTable.id) := by
      rw [← htbls]
      exact hM0.2.2
    -- The relocation by ids finds the group.
    have hreloc : (relocateIds (((cur.drop s).take (e - s)).map SSTable.id)
        (cur.take s ++ (cur.drop s).take (e - s)
          ++ ((cur.drop e).take (b - e) ++ rest))).isSome := by
      refine relocateIds_isSome hsegidsne _ ⟨(cur.take s).length, ?_⟩
      rw [List.append_assoc, List.drop_left]
      exact idsMatchAt_here _ _
    obtain ⟨pos, hpos⟩ := Option.isSome_iff_exists.mp hreloc
    -- The splice.
    have hrepl : replaceByIds (((cur.drop s).take (e - s)).map SSTable.id) M
        (cur.take s ++ (cur.drop s).take (e - s)
          ++ ((cur.drop e).take (b - e) ++ rest))
        = cur.take s ++ [M] ++ ((cur.drop e).take (b - e) ++ rest) :=
      replaceByIds_split _ _ M hsegne hdisjA hdisjC hndseg
    -- Transfer of the per-step semantic equality.
    have hstep : ∀ k,
        find_in_sstables (cur.take s ++ [M]
          ++ ((cur.drop e).take (b - e) ++ rest)) k
        = find_in_sstables cur k := by
      intro k
      have hback : find_in_sstables (cur.take s ++ (cur.drop s).take (e - s)
          ++ ((cur.drop e).take (b - e) ++ rest)) k
          = find_in_sstables cur k := by
        rw [← htbls]
        exact hfs k
      rcases hsem ((s, e), M) (by simp) with hstrong | ⟨helen, hweak⟩
      · rw [← hback]
        exact find_in_sstables_congr_mid _ _ k (hstrong k).symm
      · -- the group reaches the end of the table list
        have helen2 : e = cur.length := helen
        have hbe : b = e := by omega
        have hmid : (cur.drop e).take (b - e) = [] := by
          rw [hbe]
          simp
        have hrest : rest = [] := hbrest (by omega)
        rw [hmid, hrest, ← hback, hmid, hrest]
        simp only [List.append_nil, List.nil_append]
        exact (find_in_sstables_congr_suffix (cur.take s) k (hweak k)).symm
    -- Apply the induction hypothesis at the shrunk prefix.
    have hsubA : ∀ T ∈ cur.take s, T ∈ cur.take b ++ rest := by
      intro T hT
      exact List.mem_append.mpr
        (Or.inl (mem_of_mem_take_of_le (by omega) hT))
    have hsubMid : ∀ T ∈ (cur.drop e).take (b - e),
        T ∈ cur.take b ++ rest := by
      intro T hT
      refine List.mem_append.mpr (Or.inl ?_)
      rw [hdecomp]
      exact List.mem_append.mpr (Or.inr hT)
    have hsubRest : ∀ T ∈ rest, T ∈ cur.take b ++ rest := by
      intro T hT
      exact List.mem_append.mpr (Or.inr hT)
    have hmem_cases : ∀ T ∈ cur.take s ++ ([M]
        ++ ((cur.drop e).take (b - e) ++ rest)),
        T = M ∨ T ∈ cur.take b ++ rest := by
      intro T hT
      rcases List.mem_append.mp hT with h1 | h2
      · exact Or.inr (hsubA T h1)
      · rcases List.mem_append.mp h2 with h3 | h4
        · simp at h3
          exact Or.inl h3
        · rcases List.mem_append.mp h4 with h5 | h6
          · exact Or.inr (hsubMid T h5)
          · exact Or.inr (hsubRest T h6)
    have hids_cases : ∀ x ∈ (cur.take s ++ ([M]
        ++ ((cur.drop e).take (b - e) ++ rest))).map SSTable.id,
        x = M.id ∨ x ∈ (cur.take b ++ rest).map SSTable.id := by
      intro x hx
      obtain ⟨T, hT, hTx⟩ := List.mem_map.mp hx
      rcases hmem_cases T hT with rfl | h2
      · exact Or.inl hTx.symm
      · exact Or.inr (hTx ▸ List.mem_map_of_mem SSTable.id h2)
    have hjhd : ((s, e), M).2.id ∉ jobs2.map (fun j => j.2.id) :=
      (List.nodup_cons.mp (by simpa using hjnd)).1
    obtain ⟨fin, hfin, hfinsem, hfinwf, hfinnd, hfinlt⟩ :=
      ih s ([M] ++ ((cur.drop e).take (b - e) ++ rest))
        (by omega)
        (fun h => absurd h (by omega))
        (fun q hq => ⟨(hseg_bounds q (by simp [hq])).1,
          (List.pairwise_cons.mp hpair).1 q hq⟩)
        (List.pairwise_cons.mp hpair).2
        (by
          have hnd3 := nodup_after_replace hnd2 hMnotin
          rw [List.append_assoc] at hnd3
          exact hnd3)
        (by
          intro T hT
          rcases hmem_cases T hT with rfl | h2
          · exact hM0.1
          · exact hwfall T h2)
        (by
          intro T hT
          rcases hmem_cases T hT with rfl | h2
          · exact hM0.2.1
          · exact hlt T h2)
        (by
          intro q hq
          refine ⟨(hjprops q (by simp [hq])).1,
            (hjprops q (by simp [hq])).2.1, ?_⟩
          intro hmem
          rcases hids_cases _ hmem with h1 | h2
          · exact hjhd (h1 ▸ List.mem_map_of_mem (fun j => j.2.id) hq)
          · exact (hjprops q (by simp [hq])).2.2 h2)
        (List.nodup_cons.mp (by simpa using hjnd)).2
        (fun q hq => hsem q (by simp [hq]))
        (by
          intro k
          have := hstep k
          rw [List.append_assoc] at this
          exact this)
    refine ⟨fin, ?_, hfinsem, hfinwf, hfinnd, hfinlt⟩
    rw [htbls, applyLoop, hpos]
    dsimp only
    rw [hrepl]
    rw [List.append_assoc]
    exact hfin

theorem forall₂_mem_right {α β} {R : α → β → Prop} :
    ∀ {l₁ : List α} {l₂ : List β}, List.Forall₂ R l₁ l₂ →
      ∀ b ∈ l₂, ∃ a ∈ l₁, R a b := by
  intro l₁ l₂ h
  induction h with
  | nil => intro b hb; exact absurd hb (by simp)
  | cons hab _ ih =>
    intro b hb
    rcases List.mem_cons.mp hb with rfl | hb2
    · exact ⟨_, by simp, hab⟩
    · obtain ⟨a, ha, hr⟩ := ih b hb2
      exact ⟨a, by simp [ha], hr⟩

theorem merge_jobs_flag {cur : List SSTable} :
    ∀ p ∈ merge_jobs cur, p.2 = decide (p.1.2 ≠ cur.length) := by
  intro p hp
  unfold merge_jobs at hp
  obtain ⟨se, _, rfl⟩ := List.mem_map.mp hp
  rfl

theorem merge_jobs_fst (cur : List SSTable) :
    (merge_jobs cur).map Prod.fst = find_sstables_to_merge cur := by
  unfold merge_jobs
  rw [List.map_map]
  exact List.map_id'' (fun se => rfl) _

/-- One sequential compaction pass on a well-formed engine succeeds, keeps
the invariant, and leaves every read unchanged. -/
theorem compactStep_ok {st : Engine} (hinv : EngineInv st) :
    ∃ st2, compactStep st = some st2 ∧ EngineInv st2
      ∧ ∀ k, read st2 k = read st k := by
  obtain ⟨hP, hpairP⟩ := findGroupsAux_spec st.sstables
    (st.sstables.length + 1) st.sstables.length (by omega)
  have hfsm : findGroupsAux st.sstables (st.sstables.length + 1)
      st.sstables.length = find_sstables_to_merge st.sstables := rfl
  rw [hfsm] at hP hpairP
  have hplanfst : (merge_jobs st.sstables).map Prod.fst
      = find_sstables_to_merge st.sstables := merge_jobs_fst st.sstables
  obtain ⟨jobs, hrun, hjobsfst, hjobsnd, hjobsbound, hjobsrel⟩ :=
    runMerges_ok st.sstables (merge_jobs st.sstables) st.nextId
      (by
        intro p hp T hT
        refine hinv.runs_wf T ?_
        exact (List.Sublist.trans (List.take_sublist _ _)
          (List.drop_sublist _ _)).subset hT)
  have hjfst2 : jobs.map Prod.fst = find_sstables_to_merge st.sstables := by
    rw [hjobsfst, hplanfst]
  have hjlen : jobs.length = (merge_jobs st.sstables).length := by
    have h1 := congrArg List.length hjobsfst
    simpa using h1
  have hcur : st.sstables.take st.sstables.length ++ []
      = st.sstables := by simp
  obtain ⟨fin, hfin, hfinsem, hfinwf, hfinnd, hfinlt⟩ :=
    applyLoop_spec st.sstables (st.nextId + (merge_jobs st.sstables).length)
      jobs st.sstables.length []
      le_rfl
      (fun _ => rfl)
      (by
        intro j hj
        have hj1 : j.1 ∈ find_sstables_to_merge st.sstables := by
          rw [← hjfst2]
          exact List.mem_map_of_mem Prod.fst hj
        obtain ⟨h1, h2, _⟩ := hP j.1 hj1
        exact ⟨h1, h2⟩)
      (by
        rw [← hjfst2] at hpairP
        exact List.pairwise_map.mp hpairP)
      (by rw [hcur]; exact hinv.ids_nodup)
      (by rw [hcur]; exact hinv.runs_wf)
      (by
        rw [hcur]
        intro T hT
        have := hinv.ids_lt T hT
        omega)
      (by
        intro j hj
        obtain ⟨hb1, hb2, hb3⟩ := hjobsbound j hj
        refine ⟨hb3, by omega, ?_⟩
        rw [hcur]
        intro hmem
        obtain ⟨T, hT, hTid⟩ := List.mem_map.mp hmem
        have := hinv.ids_lt T hT
        omega)
      hjobsnd
      (by
        intro j hj
        obtain ⟨p, hp, hpj, ls, hrel, hs, hwfl, hok⟩ :=
          forall₂_mem_right hjobsrel j hj
        have hflag := merge_jobs_flag p hp
        by_cases hcl : p.1.2 = st.sstables.length
        · refine Or.inr ⟨by rw [← hpj]; exact hcl, ?_⟩
          have hp2 : p.2 = false := by
            rw [hflag, hcl]
            simp
          rw [hp2] at hok
          rw [← hpj]
          exact seg_vs_merged_weak hrel hs hwfl hok
        · refine Or.inl ?_
          have hp2 : p.2 = true := by
            rw [hflag]
            simp [hcl]
          rw [hp2] at hok
          rw [← hpj]
          exact seg_vs_merged_strong hrel hs hwfl hok)
      (by
        intro k
        rw [hcur])
  rw [hcur] at hfin
  refine ⟨{ st with
      sstables := fin,
      nextId := st.nextId + jobs.length }, ?_, ?_, ?_⟩
  · unfold compactStep
    rw [hrun]
    dsimp only
    rw [hfin]
  · refine ⟨hinv.mirror_eq, hinv.woff_eq, hinv.woff_le, hinv.file_eq,
      hinv.mirror_wf, hfinwf, hfinnd, ?_⟩
    intro T hT
    have := hfinlt T hT
    show T.id < st.nextId + jobs.length
    omega
  · intro k
    unfold read
    dsimp only
    cases find_key st.in_memory k with
    | found v => rfl
    | tombstone => rfl
    | none => exact hfinsem k

theorem initEngine_inv : EngineInv initEngine := by
  refine ⟨rfl, rfl, Nat.zero_le _, by simp [initEngine], ?_, ?_,
    by simp [initEngine], ?_⟩
  · intro e he
    simp [initEngine] at he
  · intro T hT
    simp [initEngine] at hT
  · intro T hT
    simp [initEngine] at hT

theorem execOps_append_one (ops : List Op) (op : Op) :
    execOps (ops ++ [op]) = (execOps ops).bind (fun s => execOp s op) := by
  unfold execOps
  rw [List.foldl_append]
  rfl

/-- Every well-formed operation sequence executes without error and leaves
an engine in which reading any key observes its last written value. -/
theorem execOps_spec (ops : List Op) (hwf : ∀ op ∈ ops, OpWF op) :
    ∃ st, execOps ops = some st ∧ EngineInv st
      ∧ ∀ k, read st k = .ok (lastWrittenVal ops k) := by
  induction ops using List.reverseRecOn with
  | nil =>
    refine ⟨initEngine, rfl, initEngine_inv, ?_⟩
    intro k
    rfl
  | append_singleton ops op ih =>
    have hops : ∀ o ∈ ops, OpWF o := fun o ho => hwf o (by simp [ho])
    obtain ⟨st, hex, hinv, hro⟩ := ih hops
    cases op with
    | write k v =>
      have hop : OpWF (Op.write k v) := hwf (Op.write k v) (by simp)
      obtain ⟨st2, hw, hinv2, hro2⟩ := writeKey_step k v hinv hro hop.1 hop.2
      refine ⟨st2, ?_, hinv2, hro2⟩
      rw [execOps_append_one, hex]
      show execOp st (Op.write k v) = some st2
      unfold execOp
      dsimp only
      rw [hw]
    | compact =>
      obtain ⟨st2, hc, hinv2, hrod⟩ := compactStep_ok hinv
      refine ⟨st2, ?_, hinv2, ?_⟩
      · rw [execOps_append_one, hex]
        show execOp st Op.compact = some st2
        unfold execOp
        dsimp only
        exact hc
      · intro k
        rw [hrod k, hro k]
        unfold lastWrittenVal
        rw [lastWriteOpt_append_compact]

/-- C1: for every sequence of well-formed writes and compaction passes
issued from one thread, a read of any key `k` performed afterwards returns
the last value written to `k` (absent if the last write was a tombstone or
`k` was never written), regardless of how many log rotations the writes
caused and how many compaction merges ran in between. -/
theorem C1_read_after_write (ops : List Op) (k : Nat)
    (hwf : ∀ op ∈ ops, OpWF op) :
    readAfter ops k = some (.ok (lastWrittenVal ops k)) := by
  obtain ⟨st, hex, _, hro⟩ := execOps_spec ops hwf
  unfold readAfter
  rw [hex]
  show some (read st k) = some (.ok (lastWrittenVal ops k))
  rw [hro k]

/-- Witness for C1: writing 10 then 20 to key 1, a read of key 1 returns
20. -/
theorem C1_read_after_write_witness :
    (∀ op ∈ [Op.write 1 (some 10), Op.write 1 (some 20)], OpWF op)
      ∧ readAfter [Op.write 1 (some 10), Op.write 1 (some 20)] 1
          = some (.ok (some 20)) := by
  refine ⟨by decide, ?_⟩
  rw [C1_read_after_write _ _ (by decide)]
  rfl

/-- A store whose append log has no room left: one record in the mirror and
the write offset at the end of the file, no runs yet. -/
def engineC6 : Engine :=
  ⟨serBytes (KVMemoryRepr.new 5 (some 42))
      ++ List.replicate (FILE_SIZE_BYTES - 13) 0,
    FILE_SIZE_BYTES, [(0, KVMemoryRepr.new 5 (some 42))], [], 7⟩

/-- C6 (code bug): when the record does not fit and the rotation's
conversion of the old log into a run fails (here: the run-file creation,
injected by `ioRunFileOk = false`), the engine state is NOT as it was
before the failing write call: the source has already installed a fresh
empty log and dropped the in-memory mirror by the time the error
propagates, and the half-built run is discarded — so a key that was
readable before the call reads as absent afterwards, while the claim and
the spec ("A failed rotation leaves engine state unchanged") require the
state to be exactly as before. -/
theorem C6_failed_rotation_clobbers (st : Engine) (k : Nat) (v : Option Nat)
    (k0 v0 : Nat)
    (hfull : FILE_SIZE_BYTES - st.write_offset
        < (serBytes (KVMemoryRepr.new k v)).length)
    (hconv : ∃ T, log_file_to_sstable st.nextId st.file = .ok T)
    (hmem : find_key st.in_memory k0 = .found v0)
    (hsst : st.sstables = []) :
    writeKeyFull true false k v st
      = ({ st with
            file := List.replicate FILE_SIZE_BYTES 0,
            write_offset := 0,
            in_memory := [] }, some .io)
      ∧ (writeKeyFull true false k v st).1 ≠ st
      ∧ read st k0 = .ok (some v0)
      ∧ read (writeKeyFull true false k v st).1 k0 = .ok Option.none := by
  obtain ⟨T, hT⟩ := hconv
  have hslot : calculate_log_slot (serBytes (KVMemoryRepr.new k v)).length
      st.write_offset = Option.none := by
    unfold calculate_log_slot
    rw [if_pos (by omega)]
  have hmain : writeKeyFull true false k v st
      = ({ st with
            file := List.replicate FILE_SIZE_BYTES 0,
            write_offset := 0,
            in_memory := [] }, some .io) := by
    unfold writeKeyFull
    rw [serialize_eq_ok]
    dsimp only
    rw [hslot]
    dsimp only
    rw [if_pos rfl, hT]
    dsimp only
    rw [if_neg (by simp)]
  refine ⟨hmain, ?_, ?_, ?_⟩
  · rw [hmain]
    intro heq
    have h2 : ([] : List (Nat × KVMemoryRepr)) = st.in_memory :=
      congrArg Engine.in_memory heq
    rw [← h2] at hmem
    have h3 : find_key ([] : List (Nat × KVMemoryRepr)) k0
        = FindResult.none := rfl
    rw [h3] at hmem
    exact FindResult.noConfusion hmem
  · unfold read
    rw [hmem]
  · rw [hmain]
    unfold read
    dsimp only
    have h3 : find_key ([] : List (Nat × KVMemoryRepr)) k0
        = FindResult.none := rfl
    rw [h3]
    dsimp only
    rw [hsst]
    rfl

/-- Witness for C6: on `engineC6`, the failing write's hypotheses hold and
the conclusion exhibits the lost read. -/
theorem C6_failed_rotation_clobbers_witness :
    (FILE_SIZE_BYTES - engineC6.write_offset
        < (serBytes (KVMemoryRepr.new 9 (some 1))).length)
      ∧ (writeKeyFull true false 9 (some 1) engineC6
          = ({ engineC6 with
                file := List.replicate FILE_SIZE_BYTES 0,
                write_offset := 0,
                in_memory := [] }, some .io)
        ∧ (writeKeyFull true false 9 (some 1) engineC6).1 ≠ engineC6
        ∧ read engineC6 5 = .ok (some 42)
        ∧ read (writeKeyFull true false 9 (some 1) engineC6).1 5
            = .ok Option.none) := by
  refine ⟨by decide, ?_⟩
  exact C6_failed_rotation_clobbers engineC6 9 (some 1) 5 42
    (by decide)
    ⟨⟨7, specIndexFrom
        ((sortDedup [KVMemoryRepr.new 5 (some 42)]).length
          / max (FILE_SIZE_BYTES / TABLE_TO_INDEX_RATIO) 1) 0 0
        (sortDedup [KVMemoryRepr.new 5 (some 42)]),
      (sortDedup [KVMemoryRepr.new 5 (some 42)]).flatMap serBytes,
      ((sortDedup [KVMemoryRepr.new 5 (some 42)]).flatMap serBytes).length,
      (sortDedup [KVMemoryRepr.new 5 (some 42)]).map KVMemoryRepr.key⟩,
      by
        have hscan : deserialize_entries_from_bytes engineC6.file
            = .ok [KVMemoryRepr.new 5 (some 42)] := by
          have h0 := @scan_flatMap_serBytes [KVMemoryRepr.new 5 (some 42)]
            (by decide) (FILE_SIZE_BYTES - 13)
          exact h0
        show log_file_to_sstable engineC6.nextId engineC6.file = _
        unfold log_file_to_sstable
        rw [hscan]
        exact sstableOfEntries_ok 7 (sortDedup [KVMemoryRepr.new 5 (some 42)])⟩
    (by rfl)
    (by rfl)

end KVStore
